import Mathlib

/-!
Verification of the estuary dictionary (PeterRK/estuary) against its
natural-language specification.

This file gives a shallow embedding of the parts of the code the claims
speak about:

* `src/include/utils.h` — the `Divisor` constant-divisor reciprocal.
* `src/src/hash.cc` — the SpookyHash-style 64-bit hash.
* `src/src/estuary.cc` — the variable-length engine: entries, record
  marks, `_fetch`, `_erase`, `_update` (sweep, defragment, carve,
  publish), `_init` and `Create` header arithmetic.
* the fixed-length engine (`LuckyEstuary`): `fetch`, `batch_fetch`,
  `_update`.
* `src/esgo/estuary.go` — `create` sizing and `Extend`.

Machine integers are modelled as `Nat` with explicit `% 2^w` wherever the
C++/Go code can wrap.  Memory is modelled byte-wise as functions
`Nat → Nat` (each byte in `[0,256)`), with little-endian word encoding,
matching the code's requirement of a little-endian CPU.  Loops that are
bounded in the source (`SearchInTable` over `total_entry` slots) are
modelled by bounded recursion; the one unbounded loop (the defragment
`while`) takes explicit fuel and the embedding returns `none` when the
fuel runs out, so every theorem about a completed operation conditions on
a `some` result.
-/

namespace Estuary

/-- Pointwise function update, used for table slots and data bytes. -/
def upd {α : Type} (f : Nat → α) (i : Nat) (a : α) : Nat → α :=
  fun j => if j = i then a else f j

theorem upd_same {α : Type} (f : Nat → α) (i : Nat) (a : α) : upd f i a i = a := by
  simp [upd]

theorem upd_ne {α : Type} (f : Nat → α) (i j : Nat) (a : α) (h : j ≠ i) :
    upd f i a j = f j := by
  simp [upd, h]

/-- Word size constants. -/
def B32 : Nat := 2 ^ 32

def B64 : Nat := 2 ^ 64

/-!
## Divisor (src/include/utils.h, lines 107-176)

`Divisor<uint64_t>` precomputes `m_fac`, `m_tip`, `m_sft` from the
divisor `m_val` so that `div`/`mod` become multiply-shift (Robinson
style).  `Word` is `uint64_t`, `DoubleWord` is `__uint128_t`; both are
modelled as `Nat`, with `% B64` exactly where the C++ narrows to `Word`.
-/

structure Divisor64 where
  val : Nat
  fac : Nat
  tip : Nat
  sft : Nat

/-- The shift loop of `Divisor::operator=`: starting from
`m_sft = BITWIDTH-1 = 63` and `m = 1 << 63`, halve `m` while `m > n`.
Modelled by recursion on the current shift; `sftLoop n 63` is the final
`m_sft` for `n ≥ 1`. -/
def sftLoop (n : Nat) : Nat → Nat
  | 0 => 0
  | s + 1 => if 2 ^ (s + 1) > n then sftLoop n s else s + 1

/-- Construction `Divisor(n)` / `operator=` for `uint64_t`. -/
def mkDivisor (n : Nat) : Divisor64 :=
  if n = 0 then ⟨0, 0, 0, 0⟩
  else
    let s := sftLoop n 63
    if 2 ^ s = n then ⟨n, B64 - 1, B64 - 1, s⟩
    else
      let f := 2 ^ s * B64 / n
      let r := (f * n + n) % B64
      if r ≤ 2 ^ s then ⟨n, f + 1, 0, s⟩ else ⟨n, f, f, s⟩

/-- The multiply-shift division `Divisor::div`:
`(m_fac * (DoubleWord)m + m_tip) >> (BITWIDTH + m_sft)`, the 128-bit
result narrowed to `Word` on return. -/
def Divisor64.div (d : Divisor64) (x : Nat) : Nat :=
  (d.fac * x + d.tip) / 2 ^ (64 + d.sft) % B64

/-- The remainder `Divisor::mod`: `m - m_val * div(m)` in wrapping
`uint64_t` arithmetic. -/
def Divisor64.mod (d : Divisor64) (x : Nat) : Nat :=
  (x + B64 - d.val * d.div x % B64) % B64

theorem sftLoop_spec (n : Nat) (hn : 1 ≤ n) :
    ∀ s : Nat, n < 2 ^ (s + 1) →
      2 ^ sftLoop n s ≤ n ∧ n < 2 ^ (sftLoop n s + 1) := by
  intro s
  induction s with
  | zero => intro h; exact ⟨by simpa [sftLoop] using hn, by simpa [sftLoop] using h⟩
  | succ s ih =>
    intro h
    by_cases hc : 2 ^ (s + 1) > n
    · have := ih hc
      simpa [sftLoop, hc] using this
    · push_neg at hc
      refine ⟨by simpa [sftLoop, Nat.not_lt.mpr hc] using hc, ?_⟩
      simpa [sftLoop, Nat.not_lt.mpr hc] using h

/-- Division by a power of two through the saturated reciprocal
`m_fac = m_tip = ~0`: `(P-1)*(x+1) / (P*S) = x / S` for `x < P`. -/
theorem div_saturated_reciprocal (P S x : Nat) (hS : 0 < S) (hx : x < P) :
    (P - 1) * (x + 1) / (P * S) = x / S := by
  have hP : 0 < P := Nat.lt_of_le_of_lt (Nat.zero_le x) hx
  set k := x / S with hk
  set r := x % S with hrdef
  have hxd : r + S * k = x := Nat.mod_add_div x S
  have hrS : r < S := Nat.mod_lt _ hS
  apply Nat.div_eq_of_lt_le
  · zify [Nat.one_le_iff_ne_zero.mpr (by omega : P ≠ 0)]
    nlinarith [hxd, hrS, hx, hP]
  · zify [Nat.one_le_iff_ne_zero.mpr (by omega : P ≠ 0)]
    nlinarith [hxd, hrS, hx, hP]

/-- Granlund-Montgomery round-up case: if `2^(64+s) ≤ fac * n ≤ 2^(64+s) + 2^s`
then `fac * x >> (64+s)` computes `x / n` for all `x < 2^64`. -/
theorem div_roundup_reciprocal (s n fac x : Nat) (hn : 0 < n) (hx : x < B64)
    (hlo : 2 ^ (64 + s) ≤ fac * n) (hhi : fac * n ≤ 2 ^ (64 + s) + 2 ^ s) :
    fac * x / 2 ^ (64 + s) = x / n := by
  set M := 2 ^ (64 + s) with hM
  have hMpos : 0 < M := Nat.pos_pow_of_pos _ (by norm_num)
  set k := x / n with hk
  set r := x % n with hr
  have hxd : r + n * k = x := Nat.mod_add_div x n
  have hrn : r < n := Nat.mod_lt _ hn
  have hxe : x * 2 ^ s < M := by
    have h : x * 2 ^ s < B64 * 2 ^ s :=
      (Nat.mul_lt_mul_right (Nat.pos_pow_of_pos _ (by norm_num))).mpr hx
    have hBM : B64 * 2 ^ s = M := by rw [hM, B64, Nat.pow_add]
    omega
  apply Nat.div_eq_of_lt_le
  · calc k * M ≤ k * (fac * n) := Nat.mul_le_mul_left _ hlo
      _ = fac * (n * k) := by ring
      _ ≤ fac * x := Nat.mul_le_mul_left _ (by omega)
  · have key : (fac * x) * n < ((k + 1) * M) * n := by
      have h1 : (fac * x) * n = (fac * n) * x := by ring
      have h2 : (fac * n) * x ≤ (M + 2 ^ s) * x := Nat.mul_le_mul_right _ hhi
      have h3 : (M + 2 ^ s) * x = M * x + x * 2 ^ s := by ring
      have h4 : M * x + x * 2 ^ s < M * x + M := by omega
      have h5 : M * x + M = M * (x + 1) := by ring
      have h6 : x + 1 ≤ n * k + n := by omega
      have h7 : M * (x + 1) ≤ M * (n * k + n) := Nat.mul_le_mul_left _ h6
      have h8 : M * (n * k + n) = ((k + 1) * M) * n := by ring
      omega
    exact Nat.lt_of_mul_lt_mul_right key

/-- Granlund-Montgomery round-down case: if `fac * n = 2^(64+s) - rem` with
`1 ≤ rem` and `rem + 2^s < n < 2^(s+1) ≤ 2^64`, then `fac * (x+1) >> (64+s)`
computes `x / n` for all `x < 2^64`. -/
theorem div_rounddown_reciprocal (s n fac rem x : Nat) (hx : x < B64)
    (hfac : fac * n + rem = 2 ^ (64 + s)) (hrem1 : 1 ≤ rem)
    (hrem2 : rem + 2 ^ s < n) (hns : n < 2 ^ (s + 1)) (hnB : n < B64) :
    fac * (x + 1) / 2 ^ (64 + s) = x / n := by
  set M := 2 ^ (64 + s) with hM
  have hn : 0 < n := by omega
  set k := x / n with hk
  set r := x % n with hr
  have hxd : r + n * k = x := Nat.mod_add_div x n
  have hrn : r < n := Nat.mod_lt _ hn
  have hMeq : B64 * 2 ^ s = M := by rw [hM, B64, Nat.pow_add]
  have h2s : (2:Nat) ^ (s + 1) = 2 * 2 ^ s := by rw [Nat.pow_succ]; ring
  have hsB : 2 ^ s < B64 := by omega
  have hremlt : rem < 2 ^ s := by omega
  apply Nat.div_eq_of_lt_le
  · -- lower bound: k * M ≤ fac * (x + 1); reduces to k * rem ≤ fac
    have hkey : (k * rem) * n ≤ fac * n := by
      have h1 : n * k ≤ x := by omega
      have c1 : (k * rem) * n = (n * k) * rem := by ring
      have c2 : (n * k) * rem ≤ x * rem := Nat.mul_le_mul_right _ h1
      have c3 : x * rem ≤ (B64 - 1) * rem := Nat.mul_le_mul_right _ (by omega)
      have c4 : B64 * rem + B64 ≤ M := by
        have h5 : rem + 1 ≤ 2 ^ s := hremlt
        have h6 := Nat.mul_le_mul_left B64 h5
        rw [Nat.mul_add, Nat.mul_one] at h6
        omega
      have c5 : (B64 - 1) * rem ≤ fac * n := by
        have h7 : (B64 - 1) * rem ≤ B64 * rem := Nat.mul_le_mul_right _ (by omega)
        omega
      omega
    have hkr : k * rem ≤ fac := Nat.le_of_mul_le_mul_right hkey hn
    have h7 : fac * (x + 1) = fac * (n * k) + fac * (r + 1) := by
      rw [← Nat.mul_add]; congr 1; omega
    have h8 : fac * (r + 1) ≥ fac := Nat.le_mul_of_pos_right _ (by omega)
    have h9 : k * M = fac * (n * k) + k * rem := by
      rw [← hfac]; ring
    omega
  · -- upper bound, via multiplying by n
    have key : (fac * (x + 1)) * n < ((k + 1) * M) * n := by
      have h1 : (fac * (x + 1)) * n = (fac * n) * (x + 1) := by ring
      have h2 : (fac * n) * (x + 1) + rem * (x + 1) = M * (x + 1) := by
        rw [← hfac]; ring
      have h3 : x + 1 ≤ n * k + n := by omega
      have h4 : M * (x + 1) ≤ M * (n * k + n) := Nat.mul_le_mul_left _ h3
      have h5 : M * (n * k + n) = ((k + 1) * M) * n := by ring
      have h6 : 0 < rem * (x + 1) := Nat.mul_pos (by omega) (by omega)
      omega
    exact Nat.lt_of_mul_lt_mul_right key

/-- A divisor in `(2^s, 2^(s+1))` is not a divisor of `2^(64+s)`. -/
theorem not_dvd_pow_of_strict_between (s n : Nat) (h1 : 2 ^ s < n) (h2 : n < 2 ^ (s + 1)) :
    ¬ n ∣ 2 ^ (64 + s) := by
  intro hdvd
  rcases (Nat.dvd_prime_pow Nat.prime_two).1 hdvd with ⟨j, _, rfl⟩
  have hj1 : s < j := (Nat.pow_lt_pow_iff_right (by norm_num)).1 h1
  have hj2 : j < s + 1 := (Nat.pow_lt_pow_iff_right (by norm_num)).1 h2
  omega

/-- Correctness of `Divisor<uint64_t>::div` for all `1 ≤ n < 2^64`,
`x < 2^64`. -/
theorem mkDivisor_div_eq (n x : Nat) (hn : 1 ≤ n) (hnB : n < B64) (hx : x < B64) :
    (mkDivisor n).div x = x / n := by
  have hn0 : n ≠ 0 := by omega
  have hchar := sftLoop_spec n hn 63 (by simpa [B64] using hnB)
  set s := sftLoop n 63 with hs
  rcases hchar with ⟨hlo, hhi⟩
  have hdivlt : x / n < B64 := lt_of_le_of_lt (Nat.div_le_self x n) hx
  have hMsplit : (2:Nat) ^ (64 + s) = B64 * 2 ^ s := by
    rw [B64, ← Nat.pow_add]
  by_cases hpow : 2 ^ s = n
  · -- n is a power of two: saturated reciprocal
    have hd : mkDivisor n = ⟨n, B64 - 1, B64 - 1, s⟩ := by
      rw [mkDivisor]; simp [hn0, ← hs, hpow]
    rw [hd, Divisor64.div]
    have he : (B64 - 1) * x + (B64 - 1) = (B64 - 1) * (x + 1) := by ring
    simp only [he, hMsplit]
    rw [div_saturated_reciprocal B64 (2 ^ s) x (Nat.pos_pow_of_pos _ (by norm_num)) hx,
      hpow]
    exact Nat.mod_eq_of_lt hdivlt
  · -- general case
    have hslt : 2 ^ s < n := lt_of_le_of_ne hlo hpow
    set f := 2 ^ s * B64 / n with hf
    set rem := 2 ^ s * B64 % n with hremdef
    have hfn : n * f + rem = 2 ^ s * B64 := Nat.div_add_mod _ n
    have hrem0 : rem ≠ 0 := by
      intro hz
      exact not_dvd_pow_of_strict_between s n hslt hhi
        (by rw [hMsplit, Nat.mul_comm]; exact Nat.dvd_of_mod_eq_zero hz)
    have hremn : rem < n := Nat.mod_lt _ (by omega)
    have hcomm : f * n = n * f := Nat.mul_comm f n
    have hM2 : (2:Nat) ^ (64 + s) = 2 ^ s * B64 := by rw [hMsplit, Nat.mul_comm]
    have hr : (f * n + n) % B64 = n - rem := by
      have h1 : f * n + n = 2 ^ s * B64 + (n - rem) := by omega
      rw [h1, Nat.add_mod, Nat.mul_mod_left]
      simp [Nat.mod_eq_of_lt (show n - rem < B64 by omega)]
    by_cases hcase : (f * n + n) % B64 ≤ 2 ^ s
    · -- round-up branch
      have hd : mkDivisor n = ⟨n, f + 1, 0, s⟩ := by
        rw [mkDivisor]; simp only [hn0, if_false, ← hs, hpow, if_neg hpow, ← hf, hcase, if_pos]
      rw [hd, Divisor64.div]
      simp only [Nat.add_zero]
      rw [hr] at hcase
      have he1 : (f + 1) * n = f * n + n := by ring
      rw [div_roundup_reciprocal s n (f + 1) x (by omega) hx (by omega) (by omega)]
      exact Nat.mod_eq_of_lt hdivlt
    · -- round-down branch
      have hd : mkDivisor n = ⟨n, f, f, s⟩ := by
        rw [mkDivisor]; simp only [hn0, if_false, ← hs, hpow, if_neg hpow, ← hf, hcase, if_neg,
          not_false_iff]
      rw [hd, Divisor64.div]
      have he : f * x + f = f * (x + 1) := by ring
      simp only [he]
      rw [hr] at hcase
      rw [div_rounddown_reciprocal s n f rem x hx (by omega) (by omega)
        (by omega) hhi hnB]
      exact Nat.mod_eq_of_lt hdivlt

/-- Correctness of `Divisor<uint64_t>::mod` for all `1 ≤ n < 2^64`,
`x < 2^64`. -/
theorem mkDivisor_mod_eq (n x : Nat) (hn : 1 ≤ n) (hnB : n < B64) (hx : x < B64) :
    (mkDivisor n).mod x = x % n := by
  have hval : (mkDivisor n).val = n := by
    rw [mkDivisor]
    by_cases h0 : n = 0
    · omega
    · simp only [h0, if_false]
      split
      · rfl
      · split <;> rfl
  rw [Divisor64.mod, hval, mkDivisor_div_eq n x hn hnB hx]
  have h1 : n * (x / n) ≤ x := Nat.mul_div_le x n
  have h2 : x % n + n * (x / n) = x := Nat.mod_add_div x n
  rw [Nat.mod_eq_of_lt (show n * (x / n) < B64 by omega)]
  have h3 : x + B64 - n * (x / n) = x % n + B64 := by omega
  rw [h3, Nat.add_mod_right]
  exact Nat.mod_eq_of_lt (lt_of_le_of_lt (Nat.mod_le x n) hx)

/-- C7: for every divisor `n` with `1 ≤ n < 2^64` and every input `m` in
`[0, 2^64)`, the precomputed-reciprocal divisor satisfies
`Divisor<uint64_t>(n).div(m) = ⌊m / n⌋` and
`Divisor<uint64_t>(n).mod(m) = m mod n`, agreeing with integer
semantics. -/
theorem c7_divisor_div_mod_agree (n m : Nat) (hn : 1 ≤ n) (hnB : n < B64) (hm : m < B64) :
    (mkDivisor n).div m = m / n ∧ (mkDivisor n).mod m = m % n :=
  ⟨mkDivisor_div_eq n m hn hnB hm, mkDivisor_mod_eq n m hn hnB hm⟩

/-- Witness for C7 at the concrete divisor 7 and input 1000003. -/
theorem c7_divisor_div_mod_agree_witness :
    1 ≤ 7 ∧ 7 < B64 ∧ 1000003 < B64 ∧
      ((mkDivisor 7).div 1000003 = 1000003 / 7 ∧ (mkDivisor 7).mod 1000003 = 1000003 % 7) :=
  ⟨by norm_num, by norm_num [B64], by norm_num [B64],
    c7_divisor_div_mod_agree 7 1000003 (by norm_num) (by norm_num [B64]) (by norm_num [B64])⟩

/-!
## Byte memory helpers

The dictionary region is byte-addressed little-endian memory, modelled as
`Nat → Nat` with every byte in `[0, 256)`.
-/

/-- Little-endian read of `k` bytes starting at `off`. -/
def readLE (d : Nat → Nat) (off : Nat) : Nat → Nat
  | 0 => 0
  | k + 1 => d off + 256 * readLE d (off + 1) k

/-- Little-endian write of the 8-byte word `v` at byte address `off`
(an aligned `uint64_t` store). -/
def write64 (d : Nat → Nat) (off v : Nat) : Nat → Nat :=
  fun j => if off ≤ j ∧ j < off + 8 then v / 256 ^ (j - off) % 256 else d j

/-- Read the bytes `[off, off+n)` as a list. -/
def readBytes (d : Nat → Nat) (off n : Nat) : List Nat :=
  (List.range n).map fun i => d (off + i)

/-- Write the list `bs` at byte address `off`. -/
def writeBytes (d : Nat → Nat) (off : Nat) (bs : List Nat) : Nat → Nat :=
  fun j => if off ≤ j ∧ j < off + bs.length then bs.getD (j - off) 0 else d j

/-!
## Hash (src/src/hash.cc)

The SpookyHash-style 64-bit hash.  `Rot64`, `Mix`, `End` and the chunk
loop are transcribed statement by statement; every 64-bit `+=` is modelled
as addition `% 2^64`, and `^=`/rotation stay below `2^64` bit-wise.
-/

/-- Wrapping 64-bit addition. -/
def add64 (a b : Nat) : Nat := (a + b) % B64

/-- The `Rot64` barrel rotation (used with `0 < k < 64`). -/
def rot64 (x k : Nat) : Nat := (x <<< k) % B64 ||| x >>> (64 - k)

/-- The `Mix` permutation of the 256-bit state. -/
def spookyMix : Nat × Nat × Nat × Nat → Nat × Nat × Nat × Nat :=
  fun (h0, h1, h2, h3) =>
  let h2 := add64 (rot64 h2 50) h3; let h0 := h0 ^^^ h2
  let h3 := add64 (rot64 h3 52) h0; let h1 := h1 ^^^ h3
  let h0 := add64 (rot64 h0 30) h1; let h2 := h2 ^^^ h0
  let h1 := add64 (rot64 h1 41) h2; let h3 := h3 ^^^ h1
  let h2 := add64 (rot64 h2 54) h3; let h0 := h0 ^^^ h2
  let h3 := add64 (rot64 h3 48) h0; let h1 := h1 ^^^ h3
  let h0 := add64 (rot64 h0 38) h1; let h2 := h2 ^^^ h0
  let h1 := add64 (rot64 h1 37) h2; let h3 := h3 ^^^ h1
  let h2 := add64 (rot64 h2 62) h3; let h0 := h0 ^^^ h2
  let h3 := add64 (rot64 h3 34) h0; let h1 := h1 ^^^ h3
  let h0 := add64 (rot64 h0 5) h1;  let h2 := h2 ^^^ h0
  let h1 := add64 (rot64 h1 36) h2; let h3 := h3 ^^^ h1
  (h0, h1, h2, h3)

/-- The `End` permutation of the 256-bit state. -/
def spookyEnd : Nat × Nat × Nat × Nat → Nat × Nat × Nat × Nat :=
  fun (h0, h1, h2, h3) =>
  let h3 := h3 ^^^ h2; let h2 := rot64 h2 15; let h3 := add64 h3 h2
  let h0 := h0 ^^^ h3; let h3 := rot64 h3 52; let h0 := add64 h0 h3
  let h1 := h1 ^^^ h0; let h0 := rot64 h0 26; let h1 := add64 h1 h0
  let h2 := h2 ^^^ h1; let h1 := rot64 h1 51; let h2 := add64 h2 h1
  let h3 := h3 ^^^ h2; let h2 := rot64 h2 28; let h3 := add64 h3 h2
  let h0 := h0 ^^^ h3; let h3 := rot64 h3 9;  let h0 := add64 h0 h3
  let h1 := h1 ^^^ h0; let h0 := rot64 h0 47; let h1 := add64 h1 h0
  let h2 := h2 ^^^ h1; let h1 := rot64 h1 54; let h2 := add64 h2 h1
  let h3 := h3 ^^^ h2; let h2 := rot64 h2 32; let h3 := add64 h3 h2
  let h0 := h0 ^^^ h3; let h3 := rot64 h3 25; let h0 := add64 h0 h3
  let h1 := h1 ^^^ h0; let h0 := rot64 h0 63; let h1 := add64 h1 h0
  (h0, h1, h2, h3)

/-- The 32-byte main loop of `Hash`: `c += x[0]; d += x[1]; Mix; a += x[2];
b += x[3]`, repeated over `len & ~0x1f` bytes. -/
def spookyLoop (get : Nat → Nat) : Nat → Nat → Nat × Nat × Nat × Nat → Nat × Nat × Nat × Nat
  | _, 0, st => st
  | off, k + 1, (a, b, c, d) =>
    let c := add64 c (readLE get off 8)
    let d := add64 d (readLE get (off + 8) 8)
    let (a, b, c, d) := spookyMix (a, b, c, d)
    let a := add64 a (readLE get (off + 16) 8)
    let b := add64 b (readLE get (off + 24) 8)
    spookyLoop get (off + 32) k (a, b, c, d)

/-- The tail switch of `Hash` on `len & 0xf`, with its fall-throughs
collapsed into single little-endian partial reads (byte-for-byte the same
additions in the same order). -/
def spookyTail (get : Nat → Nat) (p t : Nat) (c d : Nat) : Nat × Nat :=
  if t = 0 then
    (add64 c 0xdeadbeefdeadbeef, add64 d 0xdeadbeefdeadbeef)
  else if t ≤ 8 then
    (add64 c (readLE get p t), d)
  else
    (add64 c (readLE get p 8), add64 d (readLE get (p + 8) (t - 8)))

/-- The hash `Hash(msg, len, seed)` over the bytes
`get off, …, get (off+len-1)`. -/
def spookyHash (get : Nat → Nat) (off len seed : Nat) : Nat :=
  let a := seed % B64
  let b := seed % B64
  let c := 0xdeadbeefdeadbeef
  let d := 0xdeadbeefdeadbeef
  let (a, b, c, d) := spookyLoop get off (len / 32) (a, b, c, d)
  let p := off + 32 * (len / 32)
  let (a, b, c, d) :=
    if len &&& 0x10 ≠ 0 then
      let c := add64 c (readLE get p 8)
      let d := add64 d (readLE get (p + 8) 8)
      spookyMix (a, b, c, d)
    else (a, b, c, d)
  let p := if len &&& 0x10 ≠ 0 then p + 16 else p
  let d := add64 d (len <<< 56 % B64)
  let (c, d) := spookyTail get p (len % 16) c d
  (spookyEnd (a, b, c, d)).1

/-- Hash of a key given as a byte list (`Hash(key.ptr, key.len, seed)`). -/
def hashKey (key : List Nat) (seed : Nat) : Nat :=
  spookyHash (fun i => key.getD i 0) 0 key.length seed

/-!
## Variable engine (src/src/estuary.cc)

The dictionary state visible to the code: the `m_const` fields, the
header counters (`Estuary::Meta`), the sweeping flag, the entry table and
the data slab.  All counters are `size_t`; arithmetic on them uses the
wrapping helpers below exactly where the C++ can wrap.
-/

/-- Wrapping 64-bit subtraction (`size_t` / `uint64_t` semantics). -/
def w64sub (a b : Nat) : Nat := (a % B64 + B64 - b % B64) % B64

def MAX_OFF_MARK : Nat := 15

def ADDR_BITWIDTH : Nat := 39

def MAX_ADDR : Nat := 2 ^ ADDR_BITWIDTH - 1

def RESERVED_ADDR : Nat := 2 ^ ADDR_BITWIDTH - 2

def MIN_ENTRY : Nat := 256

def MAX_ENTRY : Nat := 2 ^ 34

def DATA_RESERVE_FACTOR : Nat := 10

def ENTRY_RESERVE_FACTOR : Nat := 8

def DATA_BLOCK_LIMIT : Nat := 2 ^ ADDR_BITWIDTH - 2

/-- `CutTag`: the top 8 bits of a 64-bit hash code. -/
def cutTag (code : Nat) : Nat := code >>> 56

/-- A 64-bit table entry, bit-split `blk:39, fit:1, off:4, tip:12, tag:8`. -/
structure Entry where
  blk : Nat
  fit : Bool
  off : Nat
  tip : Nat
  tag : Nat
deriving DecidableEq

/-- The `Entry(blk_, tip_, tag_, off_)` constructor: `off` saturates at 15,
the other fields truncate to their bit-field widths, `fit` starts 0. -/
def mkEntry (blk : Nat) (tip : Nat := 0) (tag : Nat := 0) (off : Nat := 0) : Entry :=
  ⟨blk % 2 ^ ADDR_BITWIDTH, false, if off < MAX_OFF_MARK then off else MAX_OFF_MARK,
    tip % 2 ^ 12, tag % 2 ^ 8⟩

def CLEAN_ENTRY : Entry := mkEntry MAX_ADDR

def DELETED_ENTRY : Entry := mkEntry RESERVED_ADDR

/-- `operator==` on entries ignores the `fit` bit. -/
def entryEq (a b : Entry) : Prop :=
  a.blk = b.blk ∧ a.off = b.off ∧ a.tip = b.tip ∧ a.tag = b.tag

instance : DecidablePred fun p : Entry × Entry => entryEq p.1 p.2 := fun _ =>
  by unfold entryEq; infer_instance

instance (a b : Entry) : Decidable (entryEq a b) := by unfold entryEq; infer_instance

def entryIsEmpty (e : Entry) : Prop := RESERVED_ADDR ≤ e.blk

def entryIsClean (e : Entry) : Prop := RESERVED_ADDR < e.blk

instance (e : Entry) : Decidable (entryIsEmpty e) := by unfold entryIsEmpty; infer_instance

instance (e : Entry) : Decidable (entryIsClean e) := by unfold entryIsClean; infer_instance

/-- `TotalEntry(item_limit) = item_limit*3/2` (integer division). -/
def TotalEntryFn (itemLimit : Nat) : Nat := itemLimit * 3 / 2

/-- `ItemLimit(entry) = entry*2/3` (integer division). -/
def ItemLimitFn (entry : Nat) : Nat := entry * 2 / 3

/-- The whole mapped dictionary as the engine sees it: `m_const` fields,
header (`Estuary::Meta`) counters, lock-block sweeping flag, entry table
(total `totalEntry` slots) and data slab bytes. -/
structure VState where
  maxKeyLen : Nat
  maxValLen : Nat
  reservedBlock : Nat
  seed : Nat
  totalEntry : Nat
  totalBlock : Nat
  item : Nat
  cleanEntry : Nat
  freeBlock : Nat
  blockCursor : Nat
  writing : Bool
  sweeping : Bool
  table : Nat → Entry
  data : Nat → Nat

/-- Record/free-run mark access: `klen` is byte 0 of the 8-byte mark. -/
def klenAt (d : Nat → Nat) (b : Nat) : Nat := d (b * 8)

/-- The 24-bit `vlen` half of a record mark (bytes 1-3). -/
def vlenAt (d : Nat → Nat) (b : Nat) : Nat := readLE d (b * 8 + 1) 3

/-- The 56-bit `bcnt` of a free-run mark (bytes 1-7). -/
def bcntAt (d : Nat → Nat) (b : Nat) : Nat := readLE d (b * 8 + 1) 7

/-- `MarkForEmpty(bcnt)`: `klen = 0`, `bcnt` in the upper 56 bits. -/
def markForEmpty (bcnt : Nat) : Nat := bcnt % 2 ^ 56 * 256

/-- Store a free-run mark at block `b` (`Rc(BLK(b)) = MarkForEmpty(bcnt)`). -/
def setEmptyMark (d : Nat → Nat) (b bcnt : Nat) : Nat → Nat :=
  write64 d (b * 8) (markForEmpty bcnt)

/-- Assign only the `bcnt` bit-field of the mark at block `b`
(`Rc(BLK(b)).bcnt = v`), keeping `klen`. -/
def setBcnt (d : Nat → Nat) (b v : Nat) : Nat → Nat :=
  write64 d (b * 8) (klenAt d b + v % 2 ^ 56 * 256)

/-- `RecordBlocks(klen, vlen)`: blocks of a record,
`⌈(4 + klen + vlen)/8⌉`. -/
def recordBlocks (klen vlen : Nat) : Nat := (4 + klen + vlen + 7) / 8

def recordBlocksAt (d : Nat → Nat) (b : Nat) : Nat :=
  recordBlocks (klenAt d b) (vlenAt d b)

/-- `KeyMatch`: mark's `klen` equals the key length and the bytes at
`block+4` equal the key (the length-8 word-compare fast path compares the
same bytes). -/
def keyMatch (key : List Nat) (d : Nat → Nat) (b : Nat) : Prop :=
  klenAt d b = key.length ∧ readBytes d (b * 8 + 4) key.length = key

instance (key : List Nat) (d : Nat → Nat) (b : Nat) : Decidable (keyMatch key d b) := by
  unfold keyMatch; infer_instance

/-- `ValMatch`: mark's `vlen` equals the value length and the bytes at
`RcVal = block+4+klen` equal the value. -/
def valMatch (val : List Nat) (d : Nat → Nat) (b : Nat) : Prop :=
  vlenAt d b = val.length ∧ readBytes d (b * 8 + 4 + klenAt d b) val.length = val

instance (val : List Nat) (d : Nat → Nat) (b : Nat) : Decidable (valMatch val d b) := by
  unfold valMatch; infer_instance

/-- The stored value bytes of the record at block `b`. -/
def valAt (d : Nat → Nat) (b : Nat) : List Nat :=
  readBytes d (b * 8 + 4 + klenAt d b) (vlenAt d b)

/-- `code % m_const.total_entry` through the precomputed `Divisor`. -/
def entMod (s : VState) (code : Nat) : Nat := (mkDivisor s.totalEntry).mod code

/-- One step of the `SearchInTable` pointer walk:
`if (++ent >= end) ent = table`. -/
def nextPos (T pos : Nat) : Nat := if pos + 1 ≥ T then 0 else pos + 1

/-- `TOTAL_RESERVED_BLOCK`. -/
def totalReservedBlock (s : VState) : Nat :=
  s.reservedBlock + (s.totalBlock - s.reservedBlock) / DATA_RESERVE_FACTOR

/-- The probe loop of `Estuary::_fetch` (the acquire re-load sequence of
the concurrent code re-reads identical values in this sequential state, so
the `retry` loop collapses).  `none` is a miss. -/
def fetchLoop (s : VState) (key : List Nat) (tag : Nat) : Nat → Nat → Option (List Nat)
  | _, 0 => none
  | pos, k + 1 =>
    let e := s.table pos
    if entryIsEmpty e then
      if entryIsClean e then none
      else fetchLoop s key tag (nextPos s.totalEntry pos) k
    else if e.tag = tag ∧ keyMatch key s.data e.blk then
      some (valAt s.data e.blk)
    else fetchLoop s key tag (nextPos s.totalEntry pos) k

/-- `Estuary::fetch` (the sweep-retry re-runs the same pure search, so it
returns the same result and is dropped). -/
def vFetch (s : VState) (key : List Nat) : Option (List Nat) :=
  let code := hashKey key s.seed
  fetchLoop s key (cutTag code) (entMod s code) s.totalEntry

/-- The probe loop of `Estuary::_erase`. -/
def eraseLoop (s : VState) (key : List Nat) (tag : Nat) : Nat → Nat → Bool × VState
  | _, 0 => (false, s)
  | pos, k + 1 =>
    let e := s.table pos
    if entryIsEmpty e then
      if entryIsClean e then (false, s)
      else eraseLoop s key tag (nextPos s.totalEntry pos) k
    else if e.tag = tag ∧ keyMatch key s.data e.blk then
      let bcnt := recordBlocksAt s.data e.blk
      (true, { s with
        table := upd s.table pos DELETED_ENTRY
        item := w64sub s.item 1
        data := setEmptyMark s.data e.blk bcnt
        freeBlock := add64 s.freeBlock bcnt })
    else eraseLoop s key tag (nextPos s.totalEntry pos) k

/-- `Estuary::erase`: argument check, writer exclusion (`writing` already
set raises `DataException`, modelled as `none`), `_erase`, clear
`writing`. -/
def vErase (s : VState) (key : List Nat) : Option (Bool × VState) :=
  if key = [] ∨ key.length > s.maxKeyLen then some (false, s)
  else if s.writing then none
  else
    let s1 := { s with writing := true }
    let code := hashKey key s1.seed
    let (r, s2) := eraseLoop s1 key (cutTag code) (entMod s1 code) s1.totalEntry
    some (r, { s2 with writing := false })

/-- Non-overlapping `memcpy(dst, src, n)` inside the slab, reading the
source from the pre-copy memory. -/
def copyBytes (d : Nat → Nat) (dst src n : Nat) : Nat → Nat :=
  fun j => if dst ≤ j ∧ j < dst + n then d (src + (j - dst)) else d j

/-- `FillRecord(block, key, val)`: write the payload past the mark, build
the mark (lengths truncated to their 8/24-bit fields, `part` = first four
payload bytes, zero-padded like the zero-initialised union), store it,
and return `CalcTip` = `Hash(block+4, klen+vlen, *(uint32_t*)block)`. -/
def fillRecord (d : Nat → Nat) (b : Nat) (key val : List Nat) :
    (Nat → Nat) × Nat :=
  let kv := key ++ val
  let klen := key.length % 2 ^ 8
  let vlen := val.length % 2 ^ 24
  let part := readLE (fun i => kv.getD i 0) 0 4
  let d1 := writeBytes d (b * 8 + 8) (kv.drop 4)
  let d2 := write64 d1 (b * 8) (klen + 256 * vlen + 2 ^ 32 * part)
  let tip := spookyHash d2 (b * 8 + 4) (klen + vlen) (readLE d2 (b * 8) 4)
  (d2, tip)

/-- The entry-search part of `move_record`: find the entry whose
`blk == vic` probing from the victim record's own hash, rebind it to the
cursor block and free the victim blocks; on a clean slot (record not
referenced) just free the victim blocks. -/
def moveLoop (s : VState) (origin : Entry) (trackOrigin : Bool) (vic bcnt : Nat) :
    Nat → Nat → VState × Entry
  | _, 0 =>
    ({ s with data := setEmptyMark s.data vic bcnt, freeBlock := add64 s.freeBlock bcnt },
      origin)
  | pos, k + 1 =>
    let e := s.table pos
    if entryIsEmpty e then
      if entryIsClean e then
        ({ s with data := setEmptyMark s.data vic bcnt, freeBlock := add64 s.freeBlock bcnt },
          origin)
      else moveLoop s origin trackOrigin vic bcnt (nextPos s.totalEntry pos) k
    else if e.blk = vic then
      let origin1 := if trackOrigin then e else origin
      let cur := s.blockCursor
      let free1 := w64sub s.freeBlock bcnt
      let nxt := cur + bcnt
      let d2 := if nxt ≠ s.totalBlock then
          setEmptyMark s.data nxt (w64sub (bcntAt s.data cur) bcnt)
        else s.data
      let d3 := write64 d2 (cur * 8) (readLE d2 (vic * 8) 8)
      let d4 := setEmptyMark d3 vic bcnt
      ({ s with
          data := d4
          table := upd s.table pos { e with blk := cur % 2 ^ ADDR_BITWIDTH }
          freeBlock := add64 free1 bcnt
          blockCursor := nxt }, origin1)
    else moveLoop s origin trackOrigin vic bcnt (nextPos s.totalEntry pos) k

/-- `move_record(vic)` of `Estuary::_update`: copy the record body to the
cursor region, detect the ABA-tracking case (`bcode == code` and the
victim's key equals the key being written), then relocate the entry. -/
def moveRecord (s : VState) (code : Nat) (key : List Nat) (origin : Entry) (vic : Nat) :
    VState × Entry :=
  let bcnt := recordBlocksAt s.data vic
  let d1 := copyBytes s.data (s.blockCursor * 8 + 8) (vic * 8 + 8) (bcnt * 8 - 8)
  let s1 := { s with data := d1 }
  let bcode := spookyHash d1 (vic * 8 + 4) (klenAt d1 vic) s.seed
  let trackOrigin : Bool := decide (bcode = code ∧ keyMatch key d1 vic)
  moveLoop s1 origin trackOrigin vic bcnt (entMod s1 bcode) s1.totalEntry

/-- The wrap walk of the defragmenter (the inner `while (vic < cur)` when
the cursor run ends exactly at the slab end); returns the final `vic`,
the caller rewrites block 0 as one free run of that many blocks.  Takes
fuel: a corrupt slab can make this walk loop. -/
def wrapWalk (newBlock code : Nat) (key : List Nat) :
    Nat → VState → Entry → Nat → Option (VState × Entry × Nat)
  | 0, _, _, _ => none
  | fuel + 1, s, origin, vic =>
    if vic < s.blockCursor then
      if klenAt s.data vic = 0 then
        wrapWalk newBlock code key fuel s origin (vic + bcntAt s.data vic)
      else if vic < newBlock + s.reservedBlock then
        let bcnt := recordBlocksAt s.data vic
        if bcntAt s.data s.blockCursor < bcnt then some (s, origin, vic)
        else
          let (s1, origin1) := moveRecord s code key origin vic
          if s1.blockCursor = s1.totalBlock then some (s1, origin1, vic + bcnt)
          else wrapWalk newBlock code key fuel s1 origin1 (vic + bcnt)
      else some (s, origin, vic)
    else some (s, origin, vic)

/-- The defragmentation `while` loop of `Estuary::_update`: grow the
cursor free run until it fits `new_block + reserved_block`, merging free
runs, relocating records, wrapping at the slab end.  Fuel-bounded. -/
def defragLoop (newBlock code : Nat) (key : List Nat) :
    Nat → VState → Entry → Option (VState × Entry)
  | 0, _, _ => none
  | fuel + 1, s, origin =>
    if bcntAt s.data s.blockCursor < newBlock + s.reservedBlock then
      let nxt := s.blockCursor + bcntAt s.data s.blockCursor
      if nxt = s.totalBlock then
        match wrapWalk newBlock code key (fuel + 1) s origin 0 with
        | none => none
        | some (s1, origin1, vic) =>
          defragLoop newBlock code key fuel
            { s1 with data := setEmptyMark s1.data 0 vic, blockCursor := 0 } origin1
      else
        if klenAt s.data nxt = 0 then
          let bcnt := bcntAt s.data nxt
          defragLoop newBlock code key fuel
            { s with data := setBcnt s.data s.blockCursor (bcntAt s.data s.blockCursor + bcnt) }
            origin
        else
          let bcnt := recordBlocksAt s.data nxt
          let (s1, origin1) := moveRecord s code key origin nxt
          defragLoop newBlock code key fuel
            { s1 with data := setBcnt s1.data s1.blockCursor (bcntAt s1.data s1.blockCursor + bcnt) }
            origin1
    else some (s, origin)

/-- The publish probe of `Estuary::_update` (`neo` holds the freshly
carved record): install at the first empty slot, or overwrite the first
tag+key match — rolling the allocation back when the stored value already
equals the new one, flipping the `tip` bit on ABA collision with
`origin_entry` otherwise. -/
def publishLoop (s : VState) (key val : List Nat) (neo tip tag : Nat) (origin : Entry) :
    Nat → Nat → Nat → Bool × VState
  | _, _, 0 => (false, s)
  | pos, i, k + 1 =>
    let e := s.table pos
    if entryIsEmpty e then
      let s1 := if entryIsClean e then { s with cleanEntry := w64sub s.cleanEntry 1 } else s
      (true, { s1 with
        table := upd s1.table pos (mkEntry neo tip tag i)
        item := add64 s1.item 1 })
    else if e.tag = tag ∧ keyMatch key s.data e.blk then
      let bcnt := recordBlocksAt s.data e.blk
      if valMatch val s.data e.blk then
        let d1 := setEmptyMark s.data neo bcnt
        let tail := bcntAt d1 s.blockCursor
        let d2 := setEmptyMark d1 neo (bcnt + tail)
        (true, { s with data := d2, blockCursor := neo, freeBlock := add64 s.freeBlock bcnt })
      else
        let ent := mkEntry neo tip tag i
        let ent1 := if entryEq ent origin then { ent with tip := ent.tip ^^^ 1 } else ent
        (true, { s with
          table := upd s.table pos ent1
          data := setEmptyMark s.data e.blk bcnt
          freeBlock := add64 s.freeBlock bcnt })
    else publishLoop s key val neo tip tag origin (nextPos s.totalEntry pos) (i + 1) k

/-- The inner search of one sweep `upstairs` pass for the occupied,
non-fit entry at index `curr`: probe from its home; on the first empty
slot move it there (carrying the running `fit` flag, leaving a tombstone,
fit-marked in the end pass); stop when the probe reaches the entry
itself.  Returns the new table state and whether the entry moved. -/
def sweepInner (s : VState) (curr : Nat) (fitEnd : Bool) :
    Nat → Bool → Nat → Nat → VState × Bool
  | _, _, _, 0 => (s, false)
  | pos, fitAcc, j, k + 1 =>
    let e := s.table pos
    if entryIsEmpty e then
      let c := s.table curr
      let movedEnt : Entry :=
        { c with off := if j < MAX_OFF_MARK then j else MAX_OFF_MARK, fit := fitAcc || c.fit }
      let tomb : Entry := if fitEnd then { DELETED_ENTRY with fit := true } else DELETED_ENTRY
      ({ s with table := upd (upd s.table pos movedEnt) curr tomb }, true)
    else if ¬ e.fit then
      if pos = curr then
        (if fitAcc then { s with table := upd s.table curr { e with fit := true } } else s,
          false)
      else sweepInner s curr fitEnd (nextPos s.totalEntry pos) false (j + 1) k
    else sweepInner s curr fitEnd (nextPos s.totalEntry pos) fitAcc (j + 1) k

/-- One `upstairs` pass over the whole table (`i` ascending), threading
the `moved` flag. -/
def sweepPassLoop (fitEnd : Bool) : Nat → VState → Nat → Bool → VState × Bool
  | 0, s, _, moved => (s, moved)
  | k + 1, s, i, moved =>
    let e := s.table i
    if entryIsEmpty e ∨ e.fit then sweepPassLoop fitEnd k s (i + 1) moved
    else
      let pos :=
        if e.off < MAX_OFF_MARK then
          if i < e.off then s.totalEntry + i - e.off else i - e.off
        else
          entMod s (spookyHash s.data (e.blk * 8 + 4) (klenAt s.data e.blk) s.seed)
      let (s1, m) := sweepInner s i fitEnd pos true 0 s.totalEntry
      sweepPassLoop fitEnd k s1 (i + 1) (moved || m)

def sweepPass (s : VState) (fitEnd : Bool) : VState × Bool :=
  sweepPassLoop fitEnd s.totalEntry s 0 false

/-- The post-pass cleanup walk: clear `fit` bits, count occupied entries
and fit-marked tombstones (`dirty`), turn other tombstones clean. -/
def sweepCleanupLoop : Nat → VState → Nat → Nat → Nat → VState × Nat × Nat
  | 0, s, _, item, dirty => (s, item, dirty)
  | k + 1, s, i, item, dirty =>
    let e := s.table i
    if entryIsEmpty e then
      if e.fit then
        sweepCleanupLoop k { s with table := upd s.table i { e with fit := false } } (i + 1)
          item (dirty + 1)
      else
        sweepCleanupLoop k { s with table := upd s.table i CLEAN_ENTRY } (i + 1) item dirty
    else
      sweepCleanupLoop k { s with table := upd s.table i { e with fit := false } } (i + 1)
        (item + 1) dirty

/-- The whole sweep of `Estuary::_update`: set `sweeping`, run pass one,
run the end pass if anything moved, clean up, recompute `clean_entry`,
clear `sweeping`. -/
def sweepRun (s : VState) : VState :=
  let s1 := { s with sweeping := true }
  let (s2, moved) := sweepPass s1 false
  let s3 := if moved then (sweepPass s2 true).1 else s2
  let (s4, item, dirty) := sweepCleanupLoop s3.totalEntry s3 0 0 0
  { s4 with sweeping := false, cleanEntry := s4.totalEntry - item - dirty }

/-- `Estuary::_update` (post argument/lock checks): capacity guards, maybe
sweep, defragment (fuelled), carve the new record at the cursor, publish.
`none` only on fuel exhaustion of the defragment loop. -/
def vUpdateInner (fuel : Nat) (s : VState) (key val : List Nat) : Option (Bool × VState) :=
  let newBlock := recordBlocks key.length val.length
  if s.freeBlock < newBlock + totalReservedBlock s ∨ TotalEntryFn s.item > s.totalEntry then
    some (false, s)
  else
    let s0 := if s.cleanEntry ≤ s.totalEntry / ENTRY_RESERVE_FACTOR then sweepRun s else s
    let code := hashKey key s0.seed
    match defragLoop newBlock code key fuel s0 CLEAN_ENTRY with
    | none => none
    | some (s1, origin) =>
      let cur := s1.blockCursor
      let nxt := cur + newBlock
      let d1 := setEmptyMark s1.data nxt (w64sub (bcntAt s1.data cur) newBlock)
      let d2 := setBcnt d1 cur newBlock
      let (d3, tip) := fillRecord d2 cur key val
      let s2 := { s1 with
        freeBlock := w64sub s1.freeBlock newBlock
        data := d3
        blockCursor := nxt }
      some (publishLoop s2 key val cur tip (cutTag code) origin (entMod s2 code) 0 s2.totalEntry)

/-- `Estuary::update`: argument checks, writer exclusion (`writing`
already set raises `DataException`, modelled `none`), `_update`, clear
`writing`. -/
def vUpdate (fuel : Nat) (s : VState) (key val : List Nat) : Option (Bool × VState) :=
  if key = [] ∨ key.length > s.maxKeyLen ∨ val.length > s.maxValLen then some (false, s)
  else if s.writing then none
  else
    match vUpdateInner fuel { s with writing := true } key val with
    | none => none
    | some (r, s2) => some (r, { s2 with writing := false })

/-!
## Create and load (src/src/estuary.cc, lines 642-856)

`Create`'s header arithmetic and `_init`'s validation are pure; the
memory-mapping itself is an external collaborator.  Layout constants on
x86-64 Linux: `sizeof(Header) = 64`, `sizeof(Lock) = 72`
(`pthread_mutex_t` is 40 bytes padded to a cache line plus the sweeping
flag), so `table_off = ((64+72) & ~7) + 8 = 144`.
-/

def MAGIC : Nat := 0xE998

def MAX_KEY_LEN : Nat := 255

def MAX_VAL_LEN : Nat := 2 ^ 24 - 1

structure VConfig where
  itemLimit : Nat
  maxKeyLen : Nat
  maxValLen : Nat
  avgItemSize : Nat

/-- The header record `Create` computes before mapping the file. -/
structure VHeader where
  magic : Nat
  writing : Bool
  kvKlen : Nat
  kvVlen : Nat
  seed : Nat
  item : Nat
  totalEntry : Nat
  cleanEntry : Nat
  totalBlock : Nat
  freeBlock : Nat
  blockCursor : Nat
deriving DecidableEq

/-- The argument checks and header arithmetic of `Estuary::Create`
(lines 744-770); `none` models the `bad arguments` / `too big`
failures. -/
def createHeader (cfg : VConfig) (seed : Nat) : Option VHeader :=
  if TotalEntryFn cfg.itemLimit < MIN_ENTRY ∨ TotalEntryFn cfg.itemLimit > MAX_ENTRY
      ∨ cfg.maxKeyLen = 0 ∨ cfg.maxKeyLen > MAX_KEY_LEN
      ∨ cfg.maxValLen = 0 ∨ cfg.maxValLen > MAX_VAL_LEN
      ∨ cfg.avgItemSize < 2 ∨ cfg.avgItemSize > cfg.maxKeyLen + cfg.maxValLen then
    none
  else
    let totalEntry := TotalEntryFn cfg.itemLimit
    let blockPerItem := (cfg.avgItemSize + 4 + 7) / 8
    let tb0 := blockPerItem * (cfg.itemLimit + 1)
    let tb1 := tb0 + tb0 / (DATA_RESERVE_FACTOR - 1) + 1
    let tb2 := tb1 + recordBlocks cfg.maxKeyLen cfg.maxValLen * 2
    if tb2 > DATA_BLOCK_LIMIT then none
    else some
      { magic := MAGIC, writing := false, kvKlen := cfg.maxKeyLen, kvVlen := cfg.maxValLen
        seed := seed, item := 0, totalEntry := totalEntry, cleanEntry := totalEntry
        totalBlock := tb2, freeBlock := tb2, blockCursor := 0 }

/-- A mapped dictionary file as `_init` reads it: header fields plus the
mapping size, table and slab contents, and the in-file sweeping flag. -/
structure VFile where
  size : Nat
  magic : Nat
  writing : Bool
  kvKlen : Nat
  kvVlen : Nat
  seed : Nat
  item : Nat
  totalEntry : Nat
  cleanEntry : Nat
  totalBlock : Nat
  freeBlock : Nat
  blockCursor : Nat
  sweeping : Bool
  table : Nat → Entry
  data : Nat → Nat

/-- The distinguishable failure exits of `Estuary::_init`:
`tooSmall` (mapping smaller than the header, silent), `brokenFile`
("broken file"), `notSavedCorrectly` ("file is not saved correctly"),
`badReserve` (`total_block ≤ reserved_block`, silent). -/
inductive LoadErr where
  | tooSmall
  | brokenFile
  | notSavedCorrectly
  | badReserve
deriving DecidableEq

/-- `Estuary::_init(res, monopoly, path)`: size and range validation of
the mapped file, the `writing`-flag refusal on a monopoly (non-shared)
load, and handle construction.  None of its paths stores to the mapped
file (the monopoly lock re-init writes to a fresh heap buffer), so the
file is returned unchanged by construction. -/
def vInit (f : VFile) (monopoly : Bool) : Except LoadErr VState × VFile :=
  let handle : Except LoadErr VState :=
    if f.size < 64 then .error .tooSmall
    else
      let dataOff := 144 + f.totalEntry * 8
      if f.magic ≠ MAGIC ∨ f.totalEntry < MIN_ENTRY ∨ f.totalEntry > MAX_ENTRY
          ∨ f.totalBlock < f.totalEntry ∨ f.totalBlock > DATA_BLOCK_LIMIT
          ∨ f.size < dataOff + f.totalBlock * 8 then
        .error .brokenFile
      else if monopoly ∧ f.writing then .error .notSavedCorrectly
      else
        let reserved := recordBlocks f.kvKlen f.kvVlen * 2
        if f.totalBlock ≤ reserved then .error .badReserve
        else .ok
          { maxKeyLen := f.kvKlen, maxValLen := f.kvVlen, reservedBlock := reserved
            seed := f.seed, totalEntry := f.totalEntry, totalBlock := f.totalBlock
            item := f.item, cleanEntry := f.cleanEntry, freeBlock := f.freeBlock
            blockCursor := f.blockCursor, writing := f.writing
            sweeping := if monopoly then false else f.sweeping
            table := f.table, data := f.data }
  (handle, f)

/-!
## The Go implementation (src/esgo/estuary.go): create sizing and Extend
-/

def GoMAGIC : Nat := 0xE9998888

def GoReservedAddr : Nat := 2 ^ 39 - 2

/-- 32-bit wrapping subtraction (`uint32` semantics). -/
def w32sub (a b : Nat) : Nat := (a % B32 + B32 - b % B32) % B32

/-- Go `calcBlock(keyLen, valLen) = ⌈(keyLen+valLen+4)/8⌉`. -/
def calcBlockGo (k v : Nat) : Nat := (k + v + 4 + 8 - 1) / 8

def calcTotalEntryGo (l : Nat) : Nat := l * 3 / 2

def calcItemLimitGo (e : Nat) : Nat := e * 2 / 3

structure GoConfig where
  itemLimit : Nat
  maxKeyLen : Nat
  maxValLen : Nat
  avgItemSize : Nat
deriving DecidableEq

structure GoMeta where
  magic : Nat
  kvLimit : Nat
  seed : Nat
  item : Nat
  totalEntry : Nat
  cleanEntry : Nat
  totalBlock : Nat
  freeBlock : Nat
  blockCursor : Nat
deriving DecidableEq

/-- Go `markforRecord(klen, vlen)`. -/
def markforRecordGo (k v : Nat) : Nat := k % 2 ^ 8 + v % 2 ^ 24 * 256

/-- Go `clacSize(meta)`: `sizeof(metaInfo) = 64` plus table plus slab. -/
def clacSizeGo (m : GoMeta) : Nat := 64 + m.totalEntry * 8 + m.totalBlock * 8

/-- The argument checks of Go `Create` plus the header arithmetic of
`create` (the `src == nil` path); `none` models `illegal config` and
`too big`. -/
def goCreateHeader (cfg : GoConfig) (seed : Nat) : Option GoMeta :=
  if calcTotalEntryGo cfg.itemLimit < 256 ∨ calcTotalEntryGo cfg.itemLimit > 2 ^ 34
      ∨ cfg.maxKeyLen = 0 ∨ cfg.maxKeyLen ≥ 2 ^ 8
      ∨ cfg.maxValLen = 0 ∨ cfg.maxValLen ≥ 2 ^ 24
      ∨ cfg.avgItemSize < 2 ∨ cfg.avgItemSize > cfg.maxKeyLen + cfg.maxValLen then
    none
  else
    let totalEntry := calcTotalEntryGo cfg.itemLimit
    let tb0 := (cfg.avgItemSize + 4 + 4) * (cfg.itemLimit + 1) / 8
    let tb1 := tb0 + tb0 / 9 + 1
    let tb2 := tb1 + calcBlockGo cfg.maxKeyLen cfg.maxValLen * 2
    if tb2 > GoReservedAddr then none
    else some
      { magic := GoMAGIC, kvLimit := markforRecordGo cfg.maxKeyLen cfg.maxValLen
        seed := seed, item := 0, totalEntry := totalEntry, cleanEntry := totalEntry
        totalBlock := tb2, freeBlock := tb2, blockCursor := 0 }

/-- A dictionary file as Go `Extend` sees it: the meta header, the file
size and the raw file bytes (table and slab live inside `bytes`). -/
structure GoFile where
  meta : GoMeta
  size : Nat
  bytes : Nat → Nat

/-- Go `Extend(filename, percent, cfg)`: validate, grow the slab by
`extBcnt = ⌈bcnt*percent/100⌉` blocks, write one free-run mark at the old
end of file, bump `totalBlock`/`freeBlock`, and report the updated
config.  `none` models `illegal parameters` / `broken data` errors. -/
def goExtend (f : GoFile) (percent : Nat) : Option (GoFile × GoConfig) :=
  if percent = 0 ∨ percent > 1000 then none
  else
    let m := f.meta
    let maxK := m.kvLimit % 256
    let maxV := m.kvLimit / 256
    let reserved := calcBlockGo maxK maxV * 2
    let bcnt := w64sub m.totalBlock reserved
    let ext := (bcnt * percent + 99) % B64 / 100
    if m.magic ≠ GoMAGIC ∨ m.totalEntry < 256 ∨ m.totalEntry > 2 ^ 34
        ∨ m.totalBlock ≤ reserved ∨ (m.totalBlock + ext) % B64 > GoReservedAddr
        ∨ f.size < clacSizeGo m then
      none
    else
      let bytes1 := write64 f.bytes f.size (ext % 2 ^ 56 * 256)
      let m1 := { m with
        totalBlock := (m.totalBlock + ext) % B64
        freeBlock := (m.freeBlock + ext) % B64 }
      let lim := calcItemLimitGo m.totalEntry
      let b2 := bcnt + ext
      let b3 := b2 - b2 / 10
      let avg := w32sub (w64sub (b3 * 8) (lim * 4) / lim % B32) 4
      some ({ meta := m1, size := f.size + ext * 8, bytes := bytes1 },
        { itemLimit := lim, maxKeyLen := maxK, maxValLen := maxV, avgItemSize := avg })

/-!
## Fixed engine (LuckyEstuary)

Keys and values have fixed length; the table holds 32-bit head indices
into a node array living in the data bytes.  A node at index `i` starts
at byte `i * item_size`: `next` is its first four bytes, the key|value
line starts at byte 4 (the `free` link of a free node aliases the first
four line bytes).  `GetStamp()` readings are passed in as the `now`
parameter (they only feed the recycle-delay bookkeeping).
-/

def NODE_END : Nat := 2 ^ 32 - 1

def RECYCLE_CAPACITY : Nat := 65536

def RECYCLE_BIN_SIZE : Nat := 256

structure LState where
  keyLen : Nat
  valLen : Nat
  itemSize : Nat
  capacity : Nat
  seed : Nat
  totalEntry : Nat
  item : Nat
  writing : Bool
  recycleR : Nat
  recycleW : Nat
  freeHead : Nat
  freeTail : Nat
  stamps : Nat → Int
  recycle : Nat → Nat
  table : Nat → Nat
  data : Nat → Nat

/-- `ENTRY(key) = Hash(key, m_const.key_len, m_const.seed) % m_const.total_entry`. -/
def lEntryOf (s : LState) (key : List Nat) : Nat :=
  (mkDivisor s.totalEntry).mod (spookyHash (fun i => key.getD i 0) 0 s.keyLen s.seed)

/-- Byte address of node `idx`. -/
def nodeBase (s : LState) (idx : Nat) : Nat := idx * s.itemSize

/-- `node->next`. -/
def nodeNext (s : LState) (idx : Nat) : Nat := readLE s.data (nodeBase s idx) 4

/-- `node->free` (aliases the first four line bytes). -/
def nodeFree (s : LState) (idx : Nat) : Nat := readLE s.data (nodeBase s idx + 4) 4

/-- The key bytes of node `idx` (`node->line`). -/
def nodeKey (s : LState) (idx : Nat) : List Nat :=
  readBytes s.data (nodeBase s idx + 4) s.keyLen

/-- The value bytes of node `idx` (`node->line + key_len`). -/
def nodeVal (s : LState) (idx : Nat) : List Nat :=
  readBytes s.data (nodeBase s idx + 4 + s.keyLen) s.valLen

/-- The chain walk of `LuckyEstuary::fetch`; fuel-bounded (`none` means
the walk did not finish), `some none` a miss, `some (some v)` a hit. -/
def lFetchLoop (s : LState) (key : List Nat) : Nat → Nat → Option (Option (List Nat))
  | idx, 0 => if idx = NODE_END then some none else none
  | idx, fuel + 1 =>
    if idx = NODE_END then some none
    else if nodeKey s idx = key then some (some (nodeVal s idx))
    else lFetchLoop s key (nodeNext s idx) fuel

/-- `LuckyEstuary::fetch`. -/
def lFetch (s : LState) (key : List Nat) (fuel : Nat) : Option (Option (List Nat)) :=
  lFetchLoop s key (s.table (lEntryOf s key)) fuel

/-- `new_node(key, val)`: pop the free-list head and fill in the line. -/
def lNewNode (s : LState) (key val : List Nat) : Nat × LState :=
  let id := s.freeHead
  let fr := nodeFree s id
  let s1 := { s with
    freeHead := fr
    freeTail := if fr = NODE_END then NODE_END else s.freeTail }
  let d1 := writeBytes s1.data (nodeBase s1 id + 4) key
  let d2 := writeBytes d1 (nodeBase s1 id + 4 + s.keyLen) val
  (id, { s1 with data := d2 })

/-- Little-endian write of the 4-byte word `v` at byte address `off`
(a `uint32_t` store). -/
def write32 (d : Nat → Nat) (off v : Nat) : Nat → Nat :=
  fun j => if off ≤ j ∧ j < off + 4 then v / 256 ^ (j - off) % 256 else d j

/-- The bin-chaining loop of `_recycle`'s full-ring path: thread the bin's
node indices into a `free` chain (`tail` starts at the local `fake` node,
whose `free` field is tracked separately), clearing ring slots and `next`
links on the way. -/
def flushLoop : Nat → LState → Nat → Option Nat → Nat → LState × Option Nat × Nat
  | 0, s, _, tail, fakeFree => (s, tail, fakeFree)
  | k + 1, s, i, tail, fakeFree =>
    let nid := s.recycle i
    let s1 := match tail with
      | none => s
      | some t => { s with data := write32 s.data (nodeBase s t + 4) nid }
    let fakeFree1 := if tail.isNone then nid else fakeFree
    let s2 := { s1 with recycle := upd s1.recycle i NODE_END }
    let s3 := { s2 with data := write32 s2.data (nodeBase s2 nid) NODE_END }
    flushLoop k s3 (i + 1) (some nid) fakeFree1

/-- The flush of the oldest recycle bin into the free-list tail
(`_recycle`'s full-ring path, after the grace-period sleep, which does
not change the state). -/
def lFlushBin (s : LState) : LState :=
  let begin0 := s.recycleR
  let s0 := { s with recycleR := (begin0 + RECYCLE_BIN_SIZE) % RECYCLE_CAPACITY }
  let (s1, tail, fakeFree) := flushLoop RECYCLE_BIN_SIZE s0 begin0 none 0
  let fakeFree1 := if tail.isNone then NODE_END else fakeFree
  let s2 := match tail with
    | none => s1
    | some t => { s1 with data := write32 s1.data (nodeBase s1 t + 4) NODE_END }
  let s3 :=
    if s2.freeTail = NODE_END then { s2 with freeHead := fakeFree1 }
    else { s2 with data := write32 s2.data (nodeBase s2 s2.freeTail + 4) fakeFree1 }
  { s3 with freeTail := tail.getD s3.freeTail }

/-- `LuckyEstuary::_recycle(vic)`: flush the oldest bin when the ring is
full, push the victim, and stamp the bin on wrap.  `now` stands for the
`GetStamp()` readings. -/
def lRecycle (s : LState) (now : Int) (vic : Nat) : LState :=
  let s1 := if (s.recycleW + 1) % RECYCLE_CAPACITY = s.recycleR then lFlushBin s else s
  let binIdx := s1.recycleW / RECYCLE_BIN_SIZE
  let w1 := (s1.recycleW + 1) % RECYCLE_CAPACITY
  let s2 := { s1 with recycle := upd s1.recycle s1.recycleW vic, recycleW := w1 }
  if w1 % RECYCLE_BIN_SIZE = 0 then { s2 with stamps := upd s2.stamps binIdx now } else s2

/-- The chain walk of `LuckyEstuary::_update`: `knot` is `none` for the
table slot `&m_table[entry]`, `some n` for `&node(n)->next`.  At a key
match with a different value the new node is spliced in and the victim
recycled; with an equal value nothing happens; at chain end a new node is
pushed at the head (unless at capacity). -/
def lUpdateLoop (s : LState) (now : Int) (key val : List Nat) (entry : Nat) :
    Option Nat → Nat → Option (Bool × LState)
  | _, 0 => none
  | knot, fuel + 1 =>
    let link := match knot with
      | none => s.table entry
      | some n => nodeNext s n
    if link = NODE_END then
      if s.item ≥ s.capacity then some (false, s)
      else
        let (id, s1) := lNewNode s key val
        let s2 := { s1 with data := write32 s1.data (nodeBase s1 id) (s1.table entry) }
        some (true, { s2 with table := upd s2.table entry id, item := (s2.item + 1) % B32 })
    else
      if nodeKey s link = key then
        if nodeVal s link ≠ val then
          let vic := link
          let (id, s1) := lNewNode s key val
          let s2 := { s1 with data := write32 s1.data (nodeBase s1 id) (nodeNext s1 vic) }
          let s3 := match knot with
            | none => { s2 with table := upd s2.table entry id }
            | some n => { s2 with data := write32 s2.data (nodeBase s2 n) id }
          some (true, lRecycle s3 now vic)
        else some (true, s)
      else lUpdateLoop s now key val entry (some link) fuel

/-- `LuckyEstuary::update`: writer exclusion (`writing` set raises
`DataException`, modelled `none`), `_update`, clear `writing`. -/
def lUpdate (s : LState) (now : Int) (key val : List Nat) (fuel : Nat) :
    Option (Bool × LState) :=
  if s.writing then none
  else
    let s1 := { s with writing := true }
    match lUpdateLoop s1 now key val (lEntryOf s1 key) none fuel with
    | none => none
    | some (r, s2) => some (r, { s2 with writing := false })

/-!
### Batch fetch pipeline (`LuckyEstuary::batch_fetch`)

Up to 16 in-flight probe states; prefetches are no-ops on the state.  A
slot either advances one chain hop or finishes (writing its value on a
hit or `dft_val` on a miss when provided); a finished slot is refilled
with the next key, or the window shrinks by swapping the last slot in.
-/

def WINDOW_SIZE : Nat := 16

structure PipeSt where
  idx : Nat
  ent : Nat
  node : Option Nat

/-- `init_pipeline(state, idx)`. -/
def initPipe (s : LState) (keys : Nat → List Nat) (j : Nat) : PipeSt :=
  { idx := j, ent := lEntryOf s (keys j), node := none }

inductive SlotRes where
  | cont (st : PipeSt)
  | done (hit : Bool) (wr : Option (List Nat))

/-- One iteration of the inner pipeline loop body for the slot `cur`. -/
def slotStep (s : LState) (keys : Nat → List Nat) (dft : Option (List Nat)) (cur : PipeSt) :
    SlotRes :=
  match cur.node with
  | none =>
    let nxt := s.table cur.ent
    if nxt ≠ NODE_END then .cont { cur with node := some nxt }
    else .done false dft
  | some n =>
    if nodeKey s n = keys cur.idx then .done true (some (nodeVal s n))
    else
      let nxt := nodeNext s n
      if nxt ≠ NODE_END then .cont { cur with node := some nxt }
      else .done false dft

/-- The pipeline scheduler: the inner `for (i = 0; i < window;)` walk with
refill (`idx < batch`) or window shrink (`cur = states[--window]`), inside
the outer `while (window > 0)`. -/
def pipeRun (s : LState) (keys : Nat → List Nat) (dft : Option (List Nat)) (batch : Nat) :
    Nat → List PipeSt → Nat → Nat → Nat → (Nat → List Nat) →
    Option (Nat × (Nat → List Nat))
  | 0, _, _, _, _, _ => none
  | fuel + 1, window, i, nextIdx, hit, out =>
    if window.length = 0 then some (hit, out)
    else if i ≥ window.length then pipeRun s keys dft batch fuel window 0 nextIdx hit out
    else
      let cur := window.getD i (initPipe s keys 0)
      match slotStep s keys dft cur with
      | .cont st => pipeRun s keys dft batch fuel (window.set i st) (i + 1) nextIdx hit out
      | .done h wr =>
        let out1 := match wr with
          | none => out
          | some v => upd out cur.idx v
        let hit1 := if h then hit + 1 else hit
        if nextIdx < batch then
          pipeRun s keys dft batch fuel (window.set i (initPipe s keys nextIdx)) (i + 1)
            (nextIdx + 1) hit1 out1
        else
          pipeRun s keys dft batch fuel
            ((window.set i (window.getD (window.length - 1) cur)).dropLast) i nextIdx hit1 out1

/-- `LuckyEstuary::batch_fetch` over the output buffer `out0` (slot `j`
of the buffer holds the `val_len` bytes at `data + j*val_len`). -/
def batchFetch (s : LState) (keys : Nat → List Nat) (dft : Option (List Nat))
    (batch : Nat) (out0 : Nat → List Nat) (fuel : Nat) : Option (Nat × (Nat → List Nat)) :=
  let w := min batch WINDOW_SIZE
  pipeRun s keys dft batch fuel ((List.range w).map (initPipe s keys)) 0 w 0 out0

/-- The serial reference of the claim: `fetch` each key in order, copying
`dft_val` (when provided) to the output slot of every missing key. -/
def serialLoop (s : LState) (keys : Nat → List Nat) (dft : Option (List Nat)) (fuel : Nat) :
    Nat → Nat → Nat → (Nat → List Nat) → Option (Nat × (Nat → List Nat))
  | _, 0, hit, out => some (hit, out)
  | j, k + 1, hit, out =>
    match lFetch s (keys j) fuel with
    | none => none
    | some (some v) => serialLoop s keys dft fuel (j + 1) k (hit + 1) (upd out j v)
    | some none =>
      serialLoop s keys dft fuel (j + 1) k hit
        (match dft with | some dv => upd out j dv | none => out)

/-- Serial batch lookup: `fetch` on each of the `batch` keys in order. -/
def serialBatch (s : LState) (keys : Nat → List Nat) (dft : Option (List Nat))
    (batch : Nat) (out0 : Nat → List Nat) (fuel : Nat) : Option (Nat × (Nat → List Nat)) :=
  serialLoop s keys dft fuel 0 batch 0 out0

/-!
## Claim C5: Create and totalEntry
-/

/-- Boolean success test for a load result. -/
def exceptOk (r : Except LoadErr VState) : Bool :=
  match r with
  | .ok _ => true
  | .error _ => false

/-- A concrete valid-but-dirty (writing flag set) dictionary file. -/
def dirtyFile : VFile :=
  { size := 4240, magic := MAGIC, writing := true, kvKlen := 1, kvVlen := 1, seed := 0
    item := 0, totalEntry := 256, cleanEntry := 256, totalBlock := 256, freeBlock := 256
    blockCursor := 0, sweeping := false, table := fun _ => CLEAN_ENTRY, data := fun _ => 0 }

/-- C5 counterexample: `Create` accepts `itemLimit = 171` (with
`maxKeyLen = maxValLen = 8`, `avgItemSize = 16`) and sets
`totalEntry = 171*3/2 = 256`, whereas `⌈1.5 × 171⌉ = 257`: the created
dictionary's `totalEntry` is the floor, not the ceiling. -/
theorem c5_create_total_entry_counterexample :
    (createHeader ⟨171, 8, 8, 16⟩ 0).map VHeader.totalEntry = some 256 ∧
      (3 * 171 + 1) / 2 = 257 := by
  constructor
  · decide
  · decide

/-- C5 (amended): for every configuration accepted by `Create`, the
created dictionary's `totalEntry` equals `⌊1.5 × itemLimit⌋`
(`itemLimit*3/2` in integer division), and `Create` rejects every
configuration whose resulting `totalEntry` would fall outside
`[256, 2^34]`. -/
theorem c5_create_total_entry_floor (cfg : VConfig) (seed : Nat) :
    (∀ h, createHeader cfg seed = some h → h.totalEntry = cfg.itemLimit * 3 / 2) ∧
      (cfg.itemLimit * 3 / 2 < MIN_ENTRY ∨ cfg.itemLimit * 3 / 2 > MAX_ENTRY →
        createHeader cfg seed = none) := by
  constructor
  · intro h hh
    unfold createHeader at hh
    split at hh
    · simp at hh
    · dsimp only at hh
      split at hh
      · simp at hh
      · cases hh; rfl
  · intro hout
    unfold createHeader
    rw [if_pos]
    unfold TotalEntryFn
    tauto

/-- Witness for C5 at concrete configurations: `itemLimit = 1000` is
created with `totalEntry = 1500`, and `itemLimit = 1` (`totalEntry = 1 <
256`) is rejected. -/
theorem c5_create_total_entry_floor_witness :
    (createHeader ⟨1000, 8, 255, 136⟩ 0).map VHeader.totalEntry = some 1500 ∧
      createHeader ⟨1, 8, 255, 136⟩ 0 = none := by
  constructor
  · cases hc : createHeader ⟨1000, 8, 255, 136⟩ 0 with
    | none => exact absurd hc (by decide)
    | some h =>
      have ht := (c5_create_total_entry_floor ⟨1000, 8, 255, 136⟩ 0).1 h hc
      rw [show ((some h).map VHeader.totalEntry) = some h.totalEntry from rfl, ht]
      norm_num
  · exact (c5_create_total_entry_floor ⟨1, 8, 255, 136⟩ 0).2 (by decide)

/-!
## Claim C6: the writing flag on load
-/

/-- C6 counterexample: a file whose header `writing` flag is set is
happily loaded by a non-monopoly (`SHARED`) load — `_init` checks the
flag only when `monopoly` is true — so the claim's "non-monopoly load
returns no handle" is false. -/
theorem c6_nonmonopoly_load_counterexample :
    dirtyFile.writing = true ∧ exceptOk (vInit dirtyFile false).1 = true := by
  constructor
  · rfl
  · decide

/-- C6 (amended): a monopoly (non-`SHARED`) load of a file whose header
`writing` flag is set — one that would otherwise reinitialize private
locks — refuses, surfaces the "file not saved correctly" error and
returns no handle, leaving the file contents unmodified. -/
theorem c6_monopoly_load_writing_refused (f : VFile) (hw : f.writing = true)
    (hsize : 64 ≤ f.size)
    (hvalid : ¬ (f.magic ≠ MAGIC ∨ f.totalEntry < MIN_ENTRY ∨ f.totalEntry > MAX_ENTRY
      ∨ f.totalBlock < f.totalEntry ∨ f.totalBlock > DATA_BLOCK_LIMIT
      ∨ f.size < 144 + f.totalEntry * 8 + f.totalBlock * 8)) :
    (vInit f true).1 = .error .notSavedCorrectly ∧ (vInit f true).2 = f := by
  refine ⟨?_, rfl⟩
  unfold vInit
  simp only
  rw [if_neg (by omega), if_neg hvalid, if_pos (by simp [hw])]

/-- Witness for C6 at a concrete valid-but-dirty file. -/
theorem c6_monopoly_load_writing_refused_witness :
    (vInit dirtyFile true).1 = .error .notSavedCorrectly :=
  (c6_monopoly_load_writing_refused dirtyFile rfl (by norm_num [dirtyFile]) (by decide)).1

/-!
## Claim C3: update's capacity guards
-/

theorem vstate_writing_eta (s : VState) (h : s.writing = false) :
    { s with writing := false } = s := by
  cases s
  simp_all

/-- C3 (amended): for every valid key and value within the length limits,
`update(k, v)` returns false and leaves the entire dictionary state
unchanged whenever `freeBlock < newBlocks + totalReservedBlock` or
`⌊3·item/2⌋ > totalEntry` (the code's integer-division guard; the
rational reading `(3/2)·item > totalEntry` over-claims by one at
`3·item = 2·totalEntry + 1`). -/
theorem vUpdateInner_guard (fuel : Nat) (s : VState) (key val : List Nat)
    (hguard : s.freeBlock < recordBlocks key.length val.length + totalReservedBlock s ∨
      TotalEntryFn s.item > s.totalEntry) :
    vUpdateInner fuel s key val = some (false, s) := by
  unfold vUpdateInner
  rw [if_pos hguard]

theorem c3_update_capacity_guard (fuel : Nat) (s : VState) (key val : List Nat)
    (hargs : ¬ (key = [] ∨ key.length > s.maxKeyLen ∨ val.length > s.maxValLen))
    (hw : s.writing = false)
    (hguard : s.freeBlock < recordBlocks key.length val.length + totalReservedBlock s ∨
      TotalEntryFn s.item > s.totalEntry) :
    vUpdate fuel s key val = some (false, s) := by
  unfold vUpdate
  rw [if_neg hargs, if_neg (by simp [hw])]
  rw [vUpdateInner_guard fuel _ key val (by exact hguard)]
  dsimp only
  rw [vstate_writing_eta s hw]

/-- The data slab of the C3 counterexample state: one-block records
(klen 2, vlen 0, key bytes the block index) at blocks 0..170, the cursor
free run of 429 blocks marked at block 171. -/
def ce3data : Nat → Nat := fun j =>
  if j < 171 * 8 then
    if j % 8 = 0 then 2
    else if j % 8 = 4 then j / 8 % 256
    else if j % 8 = 5 then j / 8 / 256
    else 0
  else if j < 172 * 8 then
    if j % 8 = 1 then 173 else if j % 8 = 2 then 1 else 0
  else 0

/-- The C3 counterexample state: 256 entries, 171 occupied, plenty of
free blocks, item count past the rational two-thirds bound but not past
the code's floor guard. -/
def ce3 : VState :=
  { maxKeyLen := 8, maxValLen := 8, reservedBlock := 6, seed := 0, totalEntry := 256
    totalBlock := 600, item := 171, cleanEntry := 85, freeBlock := 429, blockCursor := 171
    writing := false, sweeping := false
    table := fun i => if i < 171 then mkEntry i 0 0 0 else CLEAN_ENTRY
    data := ce3data }

/-- C3 counterexample: in `ce3` the claim's rational condition
`(3/2)·item > totalEntry` holds (`3·171 = 513 > 512 = 2·256`), yet
`update` of a fresh one-byte key succeeds and returns true, changing the
state, because the code's guard `item*3/2 > totalEntry` compares
`⌊513/2⌋ = 256 ≤ 256`. -/
theorem c3_update_capacity_guard_counterexample :
    3 * ce3.item > 2 * ce3.totalEntry ∧
      (vUpdate 4 ce3 [255] [7]).map Prod.fst = some true := by
  constructor
  · decide
  · decide

/-- Witness for C3 at a concrete starved state (`freeBlock = 0`). -/
theorem c3_update_capacity_guard_witness :
    vUpdate 4 { ce3 with freeBlock := 0 } [1] [2] = some (false, { ce3 with freeBlock := 0 }) :=
  c3_update_capacity_guard 4 { ce3 with freeBlock := 0 } [1] [2] (by decide) (by decide)
    (Or.inl (by decide))

/-!
## Claim C10: fixed-engine update of an identical value is a no-op
-/

theorem lstate_writing_eta (s : LState) (h : s.writing = false) :
    { s with writing := false } = s := by
  cases s
  simp_all

/-- Setting the `writing` flag changes no field the fetch walk reads. -/
theorem lFetchLoop_writing (s : LState) (key : List Nat) :
    ∀ fuel idx, lFetchLoop { s with writing := true } key idx fuel = lFetchLoop s key idx fuel := by
  obtain ⟨kl, vl, its, cap, sd, te, it, w, rr, rw2, fh, ft, st, rc, tb, da⟩ := s
  intro fuel
  induction fuel with
  | zero => intro idx; rfl
  | succ k ih =>
    intro idx
    simp only [lFetchLoop]
    dsimp only [nodeKey, nodeVal, nodeNext, nodeBase]
    split
    · rfl
    · split
      · rfl
      · exact ih _

/-- If the fetch walk from link `idx` returns the value `val`, then the
`_update` walk from a knot whose link is `idx` hits the same node first,
finds the stored value equal, and returns true without touching the
state. -/
theorem lUpdateLoop_found_eq (s : LState) (now : Int) (key val : List Nat) (entry : Nat) :
    ∀ fuel knot idx,
      (match knot with | none => s.table entry | some n => nodeNext s n) = idx →
      lFetchLoop s key idx fuel = some (some val) →
      lUpdateLoop s now key val entry knot (fuel + 1) = some (true, s) := by
  intro fuel
  induction fuel with
  | zero =>
    intro knot idx hlink hfetch
    rw [lFetchLoop] at hfetch
    split at hfetch <;> simp_all
  | succ k ih =>
    intro knot idx hlink hfetch
    rw [lFetchLoop] at hfetch
    rw [lUpdateLoop.eq_def]
    dsimp only
    simp only [hlink]
    split at hfetch
    · simp_all
    · next hne =>
      rw [if_neg hne]
      split at hfetch
      · next hkey =>
        rw [if_pos hkey]
        have hval : nodeVal s idx = val := by
          simp only [Option.some.injEq] at hfetch
          exact hfetch
        rw [if_neg (by simp [hval])]
      · next hkey =>
        rw [if_neg hkey]
        exact ih (some idx) (nodeNext s idx) rfl hfetch

/-- C10: in the fixed engine, for every key `k` currently present whose
stored value bytes already equal `val` (i.e. `fetch` returns exactly
`val`), `update(k, val)` returns true and changes nothing at all: the
state — free list, recycle ring, hash chains, node contents and item
count — is returned unchanged. -/
theorem c10_lucky_update_same_value_noop (s : LState) (now : Int) (key val : List Nat)
    (fuel : Nat) (hw : s.writing = false)
    (hpresent : lFetch s key fuel = some (some val)) :
    lUpdate s now key val (fuel + 1) = some (true, s) := by
  unfold lUpdate
  rw [if_neg (by simp [hw])]
  have hfetch1 : lFetchLoop { s with writing := true } key
      (({ s with writing := true } : LState).table (lEntryOf { s with writing := true } key)) fuel
      = some (some val) := by
    rw [lFetchLoop_writing]
    exact hpresent
  have hcorr := lUpdateLoop_found_eq { s with writing := true } now key val
    (lEntryOf { s with writing := true } key) fuel none _ rfl hfetch1
  dsimp only
  rw [hcorr]
  clear hcorr hfetch1 hpresent
  cases s
  simp_all

/-- A one-node fixed-engine state: key byte 9 bound to value byte 7. -/
def lw : LState :=
  { keyLen := 1, valLen := 1, itemSize := 8, capacity := 100, seed := 0, totalEntry := 4
    item := 1, writing := false, recycleR := 0, recycleW := 0, freeHead := 1, freeTail := 1
    stamps := fun _ => 0, recycle := fun _ => NODE_END, table := fun _ => 0
    data := fun j => if j < 4 then 255 else if j = 4 then 9 else if j = 5 then 7 else 0 }

/-- Witness for C10: updating key 9 with its current value 7 returns true
and the state is unchanged. -/
theorem c10_lucky_update_same_value_noop_witness :
    lUpdate lw 0 [9] [7] 3 = some (true, lw) :=
  c10_lucky_update_same_value_noop lw 0 [9] [7] 2 rfl (by decide)

/-!
## Claim C8: Go Extend
-/

theorem w64sub_exact (a b : Nat) (hb : b ≤ a) (ha : a < B64) : w64sub a b = a - b := by
  simp only [w64sub, B64] at *
  omega

theorem w32sub_exact (a b : Nat) (hb : b ≤ a) (ha : a < B32) : w32sub a b = a - b := by
  simp only [w32sub, B32] at *
  omega

/-- A little-endian byte run holding the base-256 digits of `v`
reassembles to `v` modulo `256^k`. -/
theorem readLE_digits : ∀ (k : Nat) (v off : Nat) (d : Nat → Nat),
    (∀ j, j < k → d (off + j) = v / 256 ^ j % 256) → readLE d off k = v % 256 ^ k := by
  intro k
  induction k with
  | zero => intro v off d _; simp [readLE, Nat.mod_one]
  | succ n ih =>
    intro v off d h
    rw [readLE]
    have h0 := h 0 (by omega)
    simp only [Nat.add_zero, pow_zero, Nat.div_one] at h0
    have hrec : readLE d (off + 1) n = v / 256 % 256 ^ n := by
      refine ih (v / 256) (off + 1) d ?_
      intro j hj
      have hx := h (j + 1) (by omega)
      rw [show off + 1 + j = off + (j + 1) by omega, hx, Nat.div_div_eq_div_mul, pow_succ']
    rw [h0, hrec, pow_succ', Nat.mod_mul]

/-- Reading eight bytes back from an aligned 64-bit store returns the
stored word. -/
theorem readLE_write64 (d : Nat → Nat) (off v : Nat) :
    readLE (write64 d off v) off 8 = v % B64 := by
  have h := readLE_digits 8 v off (write64 d off v) ?_
  · rw [h]
    norm_num [B64]
  · intro j hj
    simp only [write64]
    rw [if_pos (by omega), Nat.add_sub_cancel_left]

/-- The extension amount `extBcnt` computed by Go `Extend` from the meta
header. -/
def goExtAmount (m : GoMeta) (percent : Nat) : Nat :=
  (w64sub m.totalBlock (calcBlockGo (m.kvLimit % 256) (m.kvLimit / 256) * 2) * percent + 99)
    % B64 / 100

/-- The meta header Go `create` produces for config
`itemLimit = 1000, maxKeyLen = 1, maxValLen = 1, avgItemSize = 2`. -/
def c8meta : GoMeta :=
  { magic := GoMAGIC, kvLimit := 257, seed := 0, item := 0, totalEntry := 1500
    cleanEntry := 1500, totalBlock := 1393, freeBlock := 1393, blockCursor := 0 }

/-- That header's file, with all data bytes zero. -/
def c8file : GoFile := { meta := c8meta, size := clacSizeGo c8meta, bytes := fun _ => 0 }

/-- Refutes C8's final conjunct on a concrete input: create with
`avgItemSize = 2`, then `Extend(percent = 1)` succeeds but reports
`avgItemSize = 2` again — equal to the original, not strictly greater. -/
theorem c8_extend_avg_not_strictly_greater :
    goCreateHeader ⟨1000, 1, 1, 2⟩ 0 = some c8meta ∧
    (goExtend c8file 1).map (fun r => r.2.avgItemSize) = some 2 ∧
    ¬ ((2 : Nat) > 2) := by
  refine ⟨by decide, ?_, by decide⟩
  decide

/-- Constant-divisor bookkeeping of `Extend`, abstracted over the
products that appear in the slab-size arithmetic: `P` stands for
`(avg+8)*(L+1)`, `Q` for `(avg+8)*L`, `R` for `(avg+8)*lim` and `T` for
`tb1*percent`. -/
theorem goext_avg_bounds (tb0 tb1 ext b2 b3 lim L P Q R T : Nat)
    (hL : 171 ≤ L) (hLB : L ≤ 11453246123)
    (hlim_le : lim ≤ L) (hlim_ge : L - 1 ≤ lim)
    (hP1 : P ≤ 8 * tb0 + 7) (hP2 : 8 * tb0 ≤ P)
    (htb1 : tb1 = tb0 + tb0 / 9 + 1) (htb1B : tb1 ≤ 549755813886)
    (hT1 : tb1 ≤ T) (hT2 : T ≤ tb1 * 1000)
    (hext : ext = (T + 99) / 100)
    (hb2 : b2 = tb1 + ext) (hb3 : b3 = b2 - b2 / 10)
    (hRQ : R ≤ Q) (hPQ : Q + 10 ≤ P)
    (hPhi : P ≤ 16777486 * (L + 1)) :
    R ≤ 8 * b3 ∧ 8 * b3 < 4294967296 * lim ∧
      ext < 72057594037927936 ∧ 8 * b3 < 18446744073709551616 := by
  omega

/-- C8 (amended): for every meta header freshly written by Go `create`
and every percent in [1, 1000], provided the grown slab still fits below
the reserved address, `Extend` succeeds and grows only the data slab:
`totalBlock` and `freeBlock` both increase by the extension amount
`extBcnt`, a single free-run mark covering the extension is written at
the old end of file, no byte below the old file size changes, the entry
table and the item limit derived from it are unchanged, and the returned
config's `avgItemSize` is at least the original. -/
theorem c8_extend_grows_slab (cfg : GoConfig) (seed : Nat) (m : GoMeta)
    (bs : Nat → Nat) (percent : Nat)
    (hc : goCreateHeader cfg seed = some m)
    (hp1 : 1 ≤ percent) (hp2 : percent ≤ 1000)
    (hfit : m.totalBlock + goExtAmount m percent ≤ GoReservedAddr) :
    (goExtend { meta := m, size := clacSizeGo m, bytes := bs } percent).isSome = true ∧
    ∀ f2 cfg2,
      goExtend { meta := m, size := clacSizeGo m, bytes := bs } percent = some (f2, cfg2) →
      f2.meta.totalBlock = m.totalBlock + goExtAmount m percent ∧
      f2.meta.freeBlock = m.freeBlock + goExtAmount m percent ∧
      f2.meta.totalEntry = m.totalEntry ∧
      cfg2.itemLimit = calcItemLimitGo m.totalEntry ∧
      f2.size = clacSizeGo m + goExtAmount m percent * 8 ∧
      readLE f2.bytes (clacSizeGo m) 8 = goExtAmount m percent * 256 ∧
      (∀ j, j < clacSizeGo m → f2.bytes j = bs j) ∧
      cfg.avgItemSize ≤ cfg2.avgItemSize := by
  obtain ⟨L, K, V, A⟩ := cfg
  have hpc : ¬ (percent = 0 ∨ percent > 1000) := by omega
  unfold goCreateHeader at hc
  split at hc
  · exact absurd hc (by simp)
  next hguard =>
  dsimp only at hc
  split at hc
  · exact absurd hc (by simp)
  next hbig =>
  push_neg at hguard
  obtain ⟨hE1, hE2, hK1, hK2, hV1, hV2, hA1, hA2⟩ := hguard
  dsimp only at hE1 hE2 hK1 hK2 hV1 hV2 hA1 hA2
  set t0 := (A + 4 + 4) * (L + 1) / 8 with ht0d
  set t1 := t0 + t0 / 9 + 1 with ht1d
  set rv := calcBlockGo K V * 2 with hrvd
  have hrec := Option.some.inj hc
  have hmagic : m.magic = GoMAGIC := by rw [← hrec]
  have hkv : m.kvLimit = markforRecordGo K V := by rw [← hrec]
  have hte : m.totalEntry = calcTotalEntryGo L := by rw [← hrec]
  have htb : m.totalBlock = t1 + rv := by rw [← hrec]
  have hfb : m.freeBlock = t1 + rv := by rw [← hrec]
  have hL : 171 ≤ L := by simp only [calcTotalEntryGo] at hE1; omega
  have hLB : L ≤ 11453246123 := by simp only [calcTotalEntryGo] at hE2; omega
  have htbB : t1 + rv ≤ 549755813886 := by
    simp only [GoReservedAddr] at hbig; omega
  have ht1B : t1 ≤ 549755813886 := by omega
  have hkvm : markforRecordGo K V % 256 = K := by simp only [markforRecordGo]; omega
  have hkvd : markforRecordGo K V / 256 = V := by simp only [markforRecordGo]; omega
  have hrsvlt : calcBlockGo (m.kvLimit % 256) (m.kvLimit / 256) * 2 < m.totalBlock := by
    rw [hkv, hkvm, hkvd, ← hrvd, htb]
    omega
  have hbcnt : w64sub m.totalBlock (calcBlockGo (m.kvLimit % 256) (m.kvLimit / 256) * 2)
      = t1 := by
    rw [hkv, hkvm, hkvd, ← hrvd, htb]
    rw [w64sub_exact (t1 + rv) rv (by omega) (by simp only [B64]; omega)]
    omega
  have hT2 : t1 * percent ≤ t1 * 1000 := Nat.mul_le_mul_left t1 hp2
  have hT1 : t1 ≤ t1 * percent := Nat.le_mul_of_pos_right t1 (by omega)
  have hTB : t1 * 1000 ≤ 549755813886000 := Nat.mul_le_mul_right 1000 ht1B
  have hmodT : (t1 * percent + 99) % B64 = t1 * percent + 99 :=
    Nat.mod_eq_of_lt (by simp only [B64]; omega)
  have hEdef : goExtAmount m percent = (t1 * percent + 99) / 100 := by
    simp only [goExtAmount]
    rw [hbcnt, hmodT]
  have hextfold : (w64sub m.totalBlock (calcBlockGo (m.kvLimit % 256) (m.kvLimit / 256) * 2)
      * percent + 99) % B64 / 100 = goExtAmount m percent := rfl
  have hmod1 : (m.totalBlock + goExtAmount m percent) % B64
      = m.totalBlock + goExtAmount m percent := by
    apply Nat.mod_eq_of_lt
    simp only [GoReservedAddr] at hfit
    simp only [B64]
    omega
  have hfbtb : m.freeBlock = m.totalBlock := by rw [hfb, htb]
  have hlim0 : 0 < calcItemLimitGo (calcTotalEntryGo L) := by
    simp only [calcItemLimitGo, calcTotalEntryGo]; omega
  have hlim_le : calcItemLimitGo (calcTotalEntryGo L) ≤ L := by
    simp only [calcItemLimitGo, calcTotalEntryGo]; omega
  have hlim_ge : L - 1 ≤ calcItemLimitGo (calcTotalEntryGo L) := by
    simp only [calcItemLimitGo, calcTotalEntryGo]; omega
  have h48 : (A + 4 + 4) * (L + 1) = (A + 8) * (L + 1) := by ring
  have hP1 : (A + 8) * (L + 1) ≤ 8 * t0 + 7 := by omega
  have hP2 : 8 * t0 ≤ (A + 8) * (L + 1) := by omega
  have hRQ : (A + 8) * calcItemLimitGo (calcTotalEntryGo L) ≤ (A + 8) * L :=
    Nat.mul_le_mul_left _ hlim_le
  have hPexp : (A + 8) * (L + 1) = (A + 8) * L + (A + 8) := by ring
  have hPQ : (A + 8) * L + 10 ≤ (A + 8) * (L + 1) := by omega
  have hPhi : (A + 8) * (L + 1) ≤ 16777486 * (L + 1) :=
    Nat.mul_le_mul_right _ (by omega)
  obtain ⟨hRb3, hUb3, hE56, hB3B⟩ := goext_avg_bounds t0 t1 (goExtAmount m percent)
    (t1 + goExtAmount m percent)
    (t1 + goExtAmount m percent - (t1 + goExtAmount m percent) / 10)
    (calcItemLimitGo (calcTotalEntryGo L)) L ((A + 8) * (L + 1)) ((A + 8) * L)
    ((A + 8) * calcItemLimitGo (calcTotalEntryGo L)) (t1 * percent)
    hL hLB hlim_le hlim_ge hP1 hP2 ht1d ht1B hT1 hT2 hEdef rfl rfl hRQ hPQ hPhi
  have hmod56 : goExtAmount m percent % 2 ^ 56 = goExtAmount m percent :=
    Nat.mod_eq_of_lt (by omega)
  have hgf : ¬ (m.magic ≠ GoMAGIC ∨ m.totalEntry < 256 ∨ m.totalEntry > 2 ^ 34
      ∨ m.totalBlock ≤ calcBlockGo (m.kvLimit % 256) (m.kvLimit / 256) * 2
      ∨ m.totalBlock + goExtAmount m percent > GoReservedAddr
      ∨ clacSizeGo m < clacSizeGo m) := by
    push_neg
    refine ⟨hmagic, ?_, ?_, hrsvlt, hfit, le_refl _⟩
    · rw [hte]; simp only [calcTotalEntryGo]; omega
    · rw [hte]; simp only [calcTotalEntryGo]; omega
  refine ⟨?_, ?_⟩
  · unfold goExtend
    rw [if_neg hpc]
    dsimp only
    rw [hextfold, hfbtb, hmod1, hmod56, if_neg hgf]
    rfl
  · intro f2 cfg2 heq
    unfold goExtend at heq
    rw [if_neg hpc] at heq
    dsimp only at heq
    rw [hextfold, hfbtb, hmod1, hmod56, if_neg hgf] at heq
    have hp := Option.some.inj heq
    rw [Prod.mk.injEq] at hp
    obtain ⟨hf2, hcfg2⟩ := hp
    subst hf2
    subst hcfg2
    refine ⟨rfl, by rw [hfbtb], rfl, rfl, rfl, ?_, ?_, ?_⟩
    · rw [readLE_write64]
      apply Nat.mod_eq_of_lt
      simp only [B64]
      omega
    · intro j hj
      simp only [write64]
      rw [if_neg (by omega)]
    · dsimp only
      rw [hbcnt, hte]
      have hmul4 : 4 * calcItemLimitGo (calcTotalEntryGo L)
          ≤ (A + 8) * calcItemLimitGo (calcTotalEntryGo L) :=
        Nat.mul_le_mul_right _ (by omega)
      have h4lim : calcItemLimitGo (calcTotalEntryGo L) * 4
          ≤ (t1 + goExtAmount m percent - (t1 + goExtAmount m percent) / 10) * 8 := by
        omega
      rw [w64sub_exact _ _ h4lim (by simp only [B64]; omega)]
      have hqge : A + 4 ≤ ((t1 + goExtAmount m percent
            - (t1 + goExtAmount m percent) / 10) * 8
          - calcItemLimitGo (calcTotalEntryGo L) * 4) / calcItemLimitGo (calcTotalEntryGo L) := by
        rw [Nat.le_div_iff_mul_le hlim0]
        have hsplit : (A + 8) * calcItemLimitGo (calcTotalEntryGo L)
            = (A + 4) * calcItemLimitGo (calcTotalEntryGo L)
              + calcItemLimitGo (calcTotalEntryGo L) * 4 := by ring
        omega
      have hqlt : ((t1 + goExtAmount m percent
            - (t1 + goExtAmount m percent) / 10) * 8
          - calcItemLimitGo (calcTotalEntryGo L) * 4) / calcItemLimitGo (calcTotalEntryGo L)
          < B32 := by
        rw [Nat.div_lt_iff_lt_mul hlim0]
        simp only [B32]
        omega
      rw [Nat.mod_eq_of_lt hqlt]
      rw [w32sub_exact _ _ (by omega) hqlt]
      omega

/-!
## Claim C4: overwriting with an identical value

The state `_update` reaches after the capacity guard, the (skipped)
sweep, the immediately-satisfied defragment check and the carve of
`new_block` blocks at the cursor.
-/

def carvedState (s : VState) (key val : List Nat) : VState :=
  let newBlock := recordBlocks key.length val.length
  let cur := s.blockCursor
  let nxt := cur + newBlock
  let d1 := setEmptyMark s.data nxt (w64sub (bcntAt s.data cur) newBlock)
  let d2 := setBcnt d1 cur newBlock
  let d3 := (fillRecord d2 cur key val).1
  { s with freeBlock := w64sub s.freeBlock newBlock, data := d3, blockCursor := nxt }

/-- The publish probe finds an occupied slot at every step until it hits
a tag-and-key match whose stored value equals `val`; mirrors the branch
structure of `publishLoop`. -/
def findsSameLoop (s : VState) (key val : List Nat) (tag : Nat) : Nat → Nat → Bool
  | _, 0 => false
  | pos, k + 1 =>
    let e := s.table pos
    if entryIsEmpty e then false
    else if e.tag = tag ∧ keyMatch key s.data e.blk then decide (valMatch val s.data e.blk)
    else findsSameLoop s key val tag (nextPos s.totalEntry pos) k

/-!
### Byte-level read/write lemmas
-/

theorem readLE_congr (d d2 : Nat → Nat) :
    ∀ (n off : Nat), (∀ j, off ≤ j → j < off + n → d j = d2 j) →
      readLE d off n = readLE d2 off n
  | 0, off, _ => rfl
  | n + 1, off, h => by
    rw [readLE, readLE, h off (by omega) (by omega),
      readLE_congr d d2 n (off + 1) (fun j h1 h2 => h j (by omega) (by omega))]

theorem write64_outside (d : Nat → Nat) (off v j : Nat) (h : j < off ∨ off + 8 ≤ j) :
    write64 d off v j = d j := by
  simp only [write64]
  rw [if_neg (by omega)]

theorem writeBytes_outside (d : Nat → Nat) (off : Nat) (bs : List Nat) (j : Nat)
    (h : j < off ∨ off + bs.length ≤ j) : writeBytes d off bs j = d j := by
  simp only [writeBytes]
  rw [if_neg (by omega)]

/-- Reading the upper seven mark bytes back out of an aligned 64-bit
store. -/
theorem readLE_write64_hi (d : Nat → Nat) (off v : Nat) :
    readLE (write64 d off v) (off + 1) 7 = v / 256 % 2 ^ 56 := by
  have h := readLE_digits 7 (v / 256) (off + 1) (write64 d off v) ?_
  · rw [h]
    norm_num
  · intro j hj
    simp only [write64]
    rw [if_pos (by omega)]
    rw [show off + 1 + j - off = j + 1 by omega, Nat.div_div_eq_div_mul, ← pow_succ']

theorem klenAt_setEmptyMark (d : Nat → Nat) (b c : Nat) :
    klenAt (setEmptyMark d b c) b = 0 := by
  simp only [klenAt, setEmptyMark, write64, markForEmpty]
  rw [if_pos (by omega)]
  simp [Nat.mul_mod_left]

theorem bcntAt_setEmptyMark (d : Nat → Nat) (b c : Nat) :
    bcntAt (setEmptyMark d b c) b = c % 2 ^ 56 := by
  simp only [bcntAt, setEmptyMark]
  rw [readLE_write64_hi]
  simp only [markForEmpty]
  omega

theorem bcntAt_setEmptyMark_ne (d : Nat → Nat) (b c b2 : Nat) (h : b ≠ b2) :
    bcntAt (setEmptyMark d b c) b2 = bcntAt d b2 := by
  unfold bcntAt setEmptyMark
  refine readLE_congr _ _ 7 (b2 * 8 + 1) ?_
  intro j h1 h2
  refine write64_outside d _ _ j ?_
  rcases Nat.lt_or_ge b b2 with hlt | hge
  · right; omega
  · left
    have : b2 < b := by omega
    omega

/-- `findsSameLoop` ignores the `writing` flag. -/
theorem findsSameLoop_writing (s : VState) (key val : List Nat) (tag : Nat) :
    ∀ k pos, findsSameLoop { s with writing := true } key val tag pos k
      = findsSameLoop s key val tag pos k := by
  intro k
  induction k with
  | zero => intro pos; rfl
  | succ n ih =>
    intro pos
    simp only [findsSameLoop]
    split
    · rfl
    · split
      · rfl
      · exact ih _

/-- When the probe finds an identical record, `publishLoop` returns true
and rolls the carve back: the cursor returns to `neo`, `freeBlock` gains
the record's blocks back, and table, item and clean counts are untouched. -/
theorem publishLoop_rollback (s : VState) (key val : List Nat) (neo tip tag : Nat)
    (origin : Entry) :
    ∀ k pos i, findsSameLoop s key val tag pos k = true →
      publishLoop s key val neo tip tag origin pos i k =
        (true, { s with
          data := setEmptyMark (setEmptyMark s.data neo (recordBlocks key.length val.length))
            neo (recordBlocks key.length val.length
              + bcntAt (setEmptyMark s.data neo (recordBlocks key.length val.length))
                  s.blockCursor)
          blockCursor := neo
          freeBlock := add64 s.freeBlock (recordBlocks key.length val.length) }) := by
  intro k
  induction k with
  | zero => intro pos i h; exact absurd h (by simp [findsSameLoop])
  | succ n ih =>
    intro pos i h
    rw [findsSameLoop] at h
    rw [publishLoop]
    split at h
    · exact absurd h (by simp)
    · next hempty =>
      rw [if_neg hempty]
      split at h
      · next hmatch =>
        rw [if_pos hmatch]
        have hval : valMatch val s.data (s.table pos).blk := of_decide_eq_true h
        rw [if_pos hval]
        have hbcnt : recordBlocksAt s.data (s.table pos).blk
            = recordBlocks key.length val.length := by
          unfold recordBlocksAt
          rw [hmatch.2.1, hval.1]
        rw [hbcnt]
      · next hmatch =>
        rw [if_neg hmatch]
        exact ih _ _ h

theorem bcntAt_write64_ne (d : Nat → Nat) (b v b2 : Nat) (h : b ≠ b2) :
    bcntAt (write64 d (b * 8) v) b2 = bcntAt d b2 := by
  unfold bcntAt
  refine readLE_congr _ _ 7 (b2 * 8 + 1) ?_
  intro j h1 h2
  refine write64_outside d _ _ j ?_
  rcases Nat.lt_or_ge b b2 with hlt | hge
  · right; omega
  · left
    have : b2 < b := by omega
    omega

theorem recordBlocks_pos (k v : Nat) : 1 ≤ recordBlocks k v := by
  unfold recordBlocks
  omega

theorem recordBlocks_bound (k v : Nat) : 4 + k + v ≤ 8 * recordBlocks k v := by
  unfold recordBlocks
  omega

/-- `FillRecord` writes only inside the carved blocks, so marks past them
read back unchanged. -/
theorem bcntAt_fillRecord_ne (d : Nat → Nat) (cur : Nat) (key val : List Nat) (b2 : Nat)
    (h : cur + recordBlocks key.length val.length ≤ b2) :
    bcntAt (fillRecord d cur key val).1 b2 = bcntAt d b2 := by
  have hpos := recordBlocks_pos key.length val.length
  have hbnd := recordBlocks_bound key.length val.length
  unfold fillRecord bcntAt
  dsimp only
  refine readLE_congr _ _ 7 (b2 * 8 + 1) ?_
  intro j h1 h2
  rw [write64_outside _ _ _ j (Or.inr (by omega))]
  refine writeBytes_outside _ _ _ j (Or.inr ?_)
  have hlen : ((key ++ val).drop 4).length = key.length + val.length - 4 := by
    simp [List.length_drop]
  rw [hlen]
  omega

/-- The state after the rollback branch of the publish probe. -/
def rollbackState (σ : VState) (key val : List Nat) : VState :=
  let nb := recordBlocks key.length val.length
  let c2 := carvedState σ key val
  { c2 with
    data := setEmptyMark (setEmptyMark c2.data σ.blockCursor nb) σ.blockCursor
      (nb + bcntAt (setEmptyMark c2.data σ.blockCursor nb) c2.blockCursor)
    blockCursor := σ.blockCursor
    freeBlock := add64 c2.freeBlock nb }

/-- `_update` under a passing guard, a skipped sweep, an immediately
satisfied defragment check and a probe that finds the identical record:
it carves, finds the match, rolls back and returns true. -/
theorem vUpdateInner_rollback (f : Nat) (σ : VState) (key val : List Nat)
    (hguard : ¬(σ.freeBlock < recordBlocks key.length val.length + totalReservedBlock σ
      ∨ TotalEntryFn σ.item > σ.totalEntry))
    (hsweep : ¬(σ.cleanEntry ≤ σ.totalEntry / ENTRY_RESERVE_FACTOR))
    (hdefrag : ¬(bcntAt σ.data σ.blockCursor
      < recordBlocks key.length val.length + σ.reservedBlock))
    (hprobe : findsSameLoop (carvedState σ key val) key val (cutTag (hashKey key σ.seed))
      (entMod σ (hashKey key σ.seed)) σ.totalEntry = true) :
    vUpdateInner (f + 1) σ key val = some (true, rollbackState σ key val) := by
  unfold vUpdateInner
  rw [if_neg hguard]
  dsimp only
  rw [if_neg hsweep]
  rw [show defragLoop (recordBlocks key.length val.length) (hashKey key σ.seed) key (f + 1)
      σ CLEAN_ENTRY = some (σ, CLEAN_ENTRY) from by rw [defragLoop, if_neg hdefrag]]
  dsimp only
  rw [show fillRecord (setBcnt (setEmptyMark σ.data
      (σ.blockCursor + recordBlocks key.length val.length)
      (w64sub (bcntAt σ.data σ.blockCursor) (recordBlocks key.length val.length)))
      σ.blockCursor (recordBlocks key.length val.length)) σ.blockCursor key val
    = ((fillRecord (setBcnt (setEmptyMark σ.data
      (σ.blockCursor + recordBlocks key.length val.length)
      (w64sub (bcntAt σ.data σ.blockCursor) (recordBlocks key.length val.length)))
      σ.blockCursor (recordBlocks key.length val.length)) σ.blockCursor key val).1,
      (fillRecord (setBcnt (setEmptyMark σ.data
      (σ.blockCursor + recordBlocks key.length val.length)
      (w64sub (bcntAt σ.data σ.blockCursor) (recordBlocks key.length val.length)))
      σ.blockCursor (recordBlocks key.length val.length)) σ.blockCursor key val).2) from rfl]
  dsimp only
  show some (publishLoop (carvedState σ key val) key val σ.blockCursor
      (fillRecord (setBcnt (setEmptyMark σ.data
        (σ.blockCursor + recordBlocks key.length val.length)
        (w64sub (bcntAt σ.data σ.blockCursor) (recordBlocks key.length val.length)))
        σ.blockCursor (recordBlocks key.length val.length)) σ.blockCursor key val).2
      (cutTag (hashKey key σ.seed)) CLEAN_ENTRY
      (entMod (carvedState σ key val) (hashKey key σ.seed)) 0
      (carvedState σ key val).totalEntry)
    = some (true, rollbackState σ key val)
  have hprobe2 : findsSameLoop (carvedState σ key val) key val
      (cutTag (hashKey key σ.seed)) (entMod (carvedState σ key val) (hashKey key σ.seed))
      ((carvedState σ key val).totalEntry) = true := hprobe
  rw [publishLoop_rollback (carvedState σ key val) key val σ.blockCursor _ _ _ _ _ 0 hprobe2]
  rfl

theorem bcntAt_carved_next (σ : VState) (key val : List Nat) :
    bcntAt (carvedState σ key val).data (σ.blockCursor + recordBlocks key.length val.length)
      = w64sub (bcntAt σ.data σ.blockCursor) (recordBlocks key.length val.length) % 2 ^ 56 := by
  unfold carvedState
  dsimp only
  rw [bcntAt_fillRecord_ne _ σ.blockCursor key val
    (σ.blockCursor + recordBlocks key.length val.length) (le_refl _)]
  unfold setBcnt
  rw [bcntAt_write64_ne _ _ _ _ (by have := recordBlocks_pos key.length val.length; omega)]
  rw [bcntAt_setEmptyMark]

/-- C4 (amended): if the dictionary accepts the arguments, the capacity
guard passes, no sweep is due, the cursor's free run already fits the new
record, and the publish probe runs into the identical stored record
before any empty slot, then `update(k, v)` returns true and the carve is
rolled back: `freeBlock`, the block cursor, the table, and the item count
are all unchanged, and the cursor's free run is restored to its original
block count. -/
theorem c4_identical_value_rollback (fuel : Nat) (s : VState) (key val : List Nat)
    (hargs : ¬(key = [] ∨ key.length > s.maxKeyLen ∨ val.length > s.maxValLen))
    (hw : s.writing = false)
    (hguard : ¬(s.freeBlock < recordBlocks key.length val.length + totalReservedBlock s
      ∨ TotalEntryFn s.item > s.totalEntry))
    (hsweep : ¬(s.cleanEntry ≤ s.totalEntry / ENTRY_RESERVE_FACTOR))
    (hdefrag : ¬(bcntAt s.data s.blockCursor
      < recordBlocks key.length val.length + s.reservedBlock))
    (hfuel : 1 ≤ fuel)
    (hfbB : s.freeBlock < B64)
    (hcurB : bcntAt s.data s.blockCursor < 2 ^ 56)
    (hprobe : findsSameLoop (carvedState s key val) key val (cutTag (hashKey key s.seed))
      (entMod s (hashKey key s.seed)) s.totalEntry = true) :
    ∃ s3, vUpdate fuel s key val = some (true, s3) ∧
      s3.freeBlock = s.freeBlock ∧ s3.blockCursor = s.blockCursor ∧
      s3.table = s.table ∧ s3.item = s.item ∧
      klenAt s3.data s.blockCursor = 0 ∧
      bcntAt s3.data s.blockCursor = bcntAt s.data s.blockCursor := by
  obtain ⟨f, rfl⟩ : ∃ f, fuel = f + 1 := ⟨fuel - 1, by omega⟩
  have hnb1 := recordBlocks_pos key.length val.length
  have hnb_le : recordBlocks key.length val.length ≤ s.freeBlock := by
    push_neg at hguard
    omega
  have hnb_leB : recordBlocks key.length val.length ≤ bcntAt s.data s.blockCursor := by
    push_neg at hdefrag
    omega
  have hinner := vUpdateInner_rollback f { s with writing := true } key val
    (by exact hguard) (by exact hsweep) (by exact hdefrag)
    (by
      have he : carvedState { s with writing := true } key val
          = { carvedState s key val with writing := true } := rfl
      rw [he, findsSameLoop_writing]
      exact hprobe)
  unfold vUpdate
  rw [if_neg hargs, if_neg (by simp [hw]), hinner]
  dsimp only
  refine ⟨_, rfl, ?_, rfl, rfl, rfl, ?_, ?_⟩
  · show add64 (carvedState { s with writing := true } key val).freeBlock
      (recordBlocks key.length val.length) = s.freeBlock
    rw [show (carvedState { s with writing := true } key val).freeBlock
      = w64sub s.freeBlock (recordBlocks key.length val.length) from rfl]
    rw [w64sub_exact _ _ hnb_le hfbB]
    simp only [add64]
    rw [Nat.sub_add_cancel hnb_le, Nat.mod_eq_of_lt hfbB]
  · show klenAt (setEmptyMark _ s.blockCursor _) s.blockCursor = 0
    rw [klenAt_setEmptyMark]
  · show bcntAt (setEmptyMark (setEmptyMark (carvedState { s with writing := true } key val).data
        s.blockCursor (recordBlocks key.length val.length)) s.blockCursor
        (recordBlocks key.length val.length
          + bcntAt (setEmptyMark (carvedState { s with writing := true } key val).data
              s.blockCursor (recordBlocks key.length val.length))
            (carvedState { s with writing := true } key val).blockCursor))
      s.blockCursor = bcntAt s.data s.blockCursor
    rw [show (carvedState { s with writing := true } key val).blockCursor
      = s.blockCursor + recordBlocks key.length val.length from rfl]
    rw [bcntAt_setEmptyMark]
    rw [bcntAt_setEmptyMark_ne _ _ _ _ (by omega)]
    rw [bcntAt_carved_next { s with writing := true } key val]
    rw [show ({ s with writing := true } : VState).data = s.data from rfl]
    rw [show ({ s with writing := true } : VState).blockCursor = s.blockCursor from rfl]
    rw [w64sub_exact _ _ hnb_leB (by simp only [B64]; omega)]
    omega

def ce4code : Nat := hashKey [255] 0

def ce4home : Nat := (mkDivisor 256).mod ce4code

def ce4tag : Nat := cutTag ce4code

/-- The table entry of the stored record for key `[255]` at block 0. -/
def ce4entry (off : Nat) : Entry :=
  { blk := 0, fit := false, off := off, tip := 0, tag := ce4tag }

/-- Slab bytes: record `[255] ↦ [7]` at block 0, free run of 63 blocks at
block 1. -/
def ce4data : Nat → Nat := fun j =>
  if j = 0 then 1 else if j = 1 then 1
  else if j = 4 then 255 else if j = 5 then 7
  else if j = 9 then 63 else 0

/-- A dictionary holding `[255] ↦ [7]`, but with a deletion tombstone
parked on the key's home slot, so the key's entry sits one probe later. -/
def ce4 : VState :=
  { maxKeyLen := 8, maxValLen := 8, reservedBlock := 2, seed := 0, totalEntry := 256
    totalBlock := 64, item := 1, cleanEntry := 254, freeBlock := 63, blockCursor := 1
    writing := false, sweeping := false
    table := fun p => if p = ce4home then DELETED_ENTRY
      else if p = nextPos 256 ce4home then ce4entry 1 else CLEAN_ENTRY
    data := ce4data }

/-- C4 counterexample: key `[255]` is present with value `[7]`
(`fetch` returns it), yet `update([255], [7])` with the identical value
returns true and consumes a block — `freeBlock` drops from 63 to 62 and
`item` rises — because the publish probe installs into the tombstone it
meets before the key's entry, instead of reaching the identical record
and rolling back. -/
theorem c4_same_value_update_consumes_blocks :
    vFetch ce4 [255] = some [7] ∧
    (vUpdate 4 ce4 [255] [7]).map (fun r => (r.1, r.2.freeBlock, r.2.item))
      = some (true, 62, 2) ∧
    ce4.freeBlock = 63 := by
  refine ⟨?_, ?_, ?_⟩ <;> decide

/-- Like `ce4`, but with the key's entry on its home slot and no
tombstone: the probe meets the identical record first. -/
def ce4b : VState :=
  { maxKeyLen := 8, maxValLen := 8, reservedBlock := 2, seed := 0, totalEntry := 256
    totalBlock := 64, item := 1, cleanEntry := 254, freeBlock := 63, blockCursor := 1
    writing := false, sweeping := false
    table := fun p => if p = ce4home then ce4entry 0 else CLEAN_ENTRY
    data := ce4data }

/-- Witness for C4's amended theorem: on `ce4b` the identical-value
update rolls back, leaving `freeBlock`, cursor, table and item count
unchanged. -/
theorem c4_identical_value_rollback_witness :
    ∃ s3, vUpdate 1 ce4b [255] [7] = some (true, s3) ∧
      s3.freeBlock = ce4b.freeBlock ∧ s3.blockCursor = ce4b.blockCursor ∧
      s3.table = ce4b.table ∧ s3.item = ce4b.item ∧
      klenAt s3.data ce4b.blockCursor = 0 ∧
      bcntAt s3.data ce4b.blockCursor = bcntAt ce4b.data ce4b.blockCursor :=
  c4_identical_value_rollback 1 ce4b [255] [7] (by decide) rfl (by decide) (by decide)
    (by decide) (by decide) (by decide) (by decide) (by decide)

/-!
## Claim C9: batch_fetch agrees with serial fetch

The pipeline is characterised against a per-key outcome table `R`:
`R j = some v` when the chain walk for key `j` hits value `v`, `R j =
none` on a miss.  `hitW`/`writeW` describe one key's contribution to the
hit count and the output buffer; `cntR`/`cntL` sum hits over an index
range or an index list.
-/

def hitW (R : Nat → Option (List Nat)) (j : Nat) : Nat :=
  match R j with
  | some _ => 1
  | none => 0

def writeW (R : Nat → Option (List Nat)) (dft : Option (List Nat))
    (out : Nat → List Nat) (j : Nat) : List Nat :=
  match R j with
  | some v => v
  | none =>
    match dft with
    | some dv => dv
    | none => out j

def cntR (R : Nat → Option (List Nat)) : Nat → Nat → Nat
  | _, 0 => 0
  | j, k + 1 => hitW R j + cntR R (j + 1) k

def cntL (R : Nat → Option (List Nat)) (l : List Nat) : Nat :=
  (l.map (hitW R)).sum

theorem writeW_congr (R : Nat → Option (List Nat)) (dft : Option (List Nat))
    (out out2 : Nat → List Nat) (j : Nat) (h : out j = out2 j) :
    writeW R dft out j = writeW R dft out2 j := by
  unfold writeW
  cases R j
  · cases dft
    · exact h
    · rfl
  · rfl

theorem serialLoop_zero (s : LState) (keys : Nat → List Nat) (dft : Option (List Nat))
    (fuel j hit : Nat) (out : Nat → List Nat) :
    serialLoop s keys dft fuel j 0 hit out = some (hit, out) := rfl

theorem serialLoop_succ (s : LState) (keys : Nat → List Nat) (dft : Option (List Nat))
    (fuel j n hit : Nat) (out : Nat → List Nat) :
    serialLoop s keys dft fuel j (n + 1) hit out =
      match lFetch s (keys j) fuel with
      | none => none
      | some (some v) => serialLoop s keys dft fuel (j + 1) n (hit + 1) (upd out j v)
      | some none =>
        serialLoop s keys dft fuel (j + 1) n hit
          (match dft with | some dv => upd out j dv | none => out) := rfl

/-- A successful serial run performed every fetch. -/
theorem serialLoop_fetch_some (s : LState) (keys : Nat → List Nat) (dft : Option (List Nat))
    (fuel : Nat) :
    ∀ k j hit out H O, serialLoop s keys dft fuel j k hit out = some (H, O) →
      ∀ t, t < k → ∃ r, lFetch s (keys (j + t)) fuel = some r := by
  intro k
  induction k with
  | zero => intro j hit out H O _ t ht; exact absurd ht (by omega)
  | succ n ih =>
    intro j hit out H O hrun t ht
    rw [serialLoop_succ] at hrun
    cases hf : lFetch s (keys j) fuel with
    | none => rw [hf] at hrun; exact absurd hrun (by simp)
    | some r =>
      rw [hf] at hrun
      cases t with
      | zero => exact ⟨r, by simpa using hf⟩
      | succ t2 =>
        rw [show j + (t2 + 1) = j + 1 + t2 by omega]
        cases r with
        | some v => exact ih (j + 1) (hit + 1) (upd out j v) H O hrun t2 (by omega)
        | none => exact ih (j + 1) hit _ H O hrun t2 (by omega)

/-- The serial reference evaluates to the canonical hit count and
output. -/
theorem serialLoop_eval (s : LState) (keys : Nat → List Nat) (dft : Option (List Nat))
    (fuel : Nat) (R : Nat → Option (List Nat)) :
    ∀ k j hit out,
      (∀ t, t < k → lFetch s (keys (j + t)) fuel = some (R (j + t))) →
      ∃ O, serialLoop s keys dft fuel j k hit out = some (hit + cntR R j k, O) ∧
        ∀ j2, O j2 = if j ≤ j2 ∧ j2 < j + k then writeW R dft out j2 else out j2 := by
  intro k
  induction k with
  | zero =>
    intro j hit out _
    refine ⟨out, by rw [serialLoop_zero]; simp [cntR], ?_⟩
    intro j2
    rw [if_neg (by omega)]
  | succ n ih =>
    intro j hit out hfet
    have h0 := hfet 0 (by omega)
    rw [Nat.add_zero] at h0
    have hfet2 : ∀ t, t < n → lFetch s (keys (j + 1 + t)) fuel = some (R (j + 1 + t)) := by
      intro t ht
      have := hfet (t + 1) (by omega)
      rwa [show j + (t + 1) = j + 1 + t by omega] at this
    cases hRj : R j with
    | some v =>
      obtain ⟨O, hO, hPt⟩ := ih (j + 1) (hit + 1) (upd out j v) hfet2
      refine ⟨O, ?_, ?_⟩
      · rw [serialLoop_succ, h0, hRj]
        dsimp only
        rw [hO]
        congr 2
        simp only [cntR, hitW, hRj]
        omega
      · intro j2
        rw [hPt j2]
        by_cases h1 : j2 = j
        · subst h1
          rw [if_neg (by omega), if_pos (by omega)]
          simp [upd, writeW, hRj]
        · have hupd : upd out j v j2 = out j2 := by simp [upd, h1]
          by_cases h2 : j + 1 ≤ j2 ∧ j2 < j + 1 + n
          · rw [if_pos h2, if_pos (by omega)]
            exact writeW_congr R dft _ _ j2 hupd
          · rw [if_neg h2, if_neg (by omega)]
            exact hupd
    | none =>
      cases dft with
      | some dv =>
        obtain ⟨O, hO, hPt⟩ := ih (j + 1) hit (upd out j dv) hfet2
        refine ⟨O, ?_, ?_⟩
        · rw [serialLoop_succ, h0, hRj]
          dsimp only
          rw [hO]
          congr 2
          simp only [cntR, hitW, hRj]
          omega
        · intro j2
          rw [hPt j2]
          by_cases h1 : j2 = j
          · subst h1
            rw [if_neg (by omega), if_pos (by omega)]
            simp [upd, writeW, hRj]
          · have hupd : upd out j dv j2 = out j2 := by simp [upd, h1]
            by_cases h2 : j + 1 ≤ j2 ∧ j2 < j + 1 + n
            · rw [if_pos h2, if_pos (by omega)]
              exact writeW_congr R (some dv) _ _ j2 hupd
            · rw [if_neg h2, if_neg (by omega)]
              exact hupd
      | none =>
        obtain ⟨O, hO, hPt⟩ := ih (j + 1) hit out hfet2
        refine ⟨O, ?_, ?_⟩
        · rw [serialLoop_succ, h0, hRj]
          dsimp only
          rw [hO]
          congr 2
          simp only [cntR, hitW, hRj]
          omega
        · intro j2
          rw [hPt j2]
          by_cases h1 : j2 = j
          · subst h1
            rw [if_neg (by omega), if_pos (by omega)]
            simp [writeW, hRj]
          · by_cases h2 : j + 1 ≤ j2 ∧ j2 < j + 1 + n
            · rw [if_pos h2, if_pos (by omega)]
            · rw [if_neg h2, if_neg (by omega)]

/-!
### List bookkeeping for the pipeline window
-/

theorem list_set_perm {α : Type} : ∀ (l : List α) (i : Nat) (a : α), i < l.length →
    (l.set i a).Perm (a :: l.eraseIdx i)
  | [], i, a, h => absurd h (by simp)
  | b :: t, 0, a, _ => by simp
  | b :: t, i + 1, a, h => by
    simp only [List.set_cons_succ, List.eraseIdx_cons_succ]
    exact ((list_set_perm t i a (by simpa using h)).cons b).trans (List.Perm.swap a b _)

theorem list_set_getD_self {α : Type} : ∀ (l : List α) (i : Nat) (d : α), i < l.length →
    l.set i (l.getD i d) = l
  | [], i, d, h => absurd h (by simp)
  | b :: t, 0, d, _ => by simp
  | b :: t, i + 1, d, h => by
    simp only [List.getD_cons_succ, List.set_cons_succ]
    rw [list_set_getD_self t i d (by simpa using h)]

theorem list_perm_cons_eraseIdx {α : Type} (l : List α) (i : Nat) (d : α) (h : i < l.length) :
    l.Perm (l.getD i d :: l.eraseIdx i) := by
  have := list_set_perm l i (l.getD i d) h
  rwa [list_set_getD_self l i d h] at this

theorem list_getD_last_cons {α : Type} (a b : α) (t : List α) (d : α) :
    (a :: b :: t).getD ((a :: b :: t).length - 1) d
      = (b :: t).getD ((b :: t).length - 1) d := by
  show (a :: b :: t).getD (t.length + 1) d = (b :: t).getD t.length d
  rw [List.getD_cons_succ]

theorem list_perm_last_cons {α : Type} (t : List α) (d : α) (h : t ≠ []) :
    t.Perm (t.getD (t.length - 1) d :: t.dropLast) := by
  have hlen : 0 < t.length := List.length_pos.mpr h
  have h1 : t.getD (t.length - 1) d = t.getLast h := by
    rw [List.getLast_eq_getElem, List.getD_eq_getElem]
  rw [h1]
  have h3 := List.perm_append_singleton (t.getLast h) t.dropLast
  rw [List.dropLast_concat_getLast h] at h3
  exact h3

/-- `cur = states[--window]`: overwriting slot `i` with the last slot and
shrinking drops exactly slot `i`, up to permutation. -/
theorem list_shrink_perm {α : Type} : ∀ (l : List α) (i : Nat) (d : α), i < l.length →
    ((l.set i (l.getD (l.length - 1) d)).dropLast).Perm (l.eraseIdx i)
  | [], i, d, h => absurd h (by simp)
  | a :: t, 0, d, h => by
    cases t with
    | nil => simp
    | cons b t2 =>
      rw [list_getD_last_cons]
      show ((b :: t2).getD ((b :: t2).length - 1) d :: (b :: t2).dropLast).Perm (b :: t2)
      exact (list_perm_last_cons (b :: t2) d (by simp)).symm
  | a :: t, i + 1, d, h => by
    cases t with
    | nil => exact absurd h (by simp)
    | cons b t2 =>
      rw [list_getD_last_cons]
      show ((a :: (b :: t2).set i ((b :: t2).getD ((b :: t2).length - 1) d)).dropLast).Perm
        (a :: (b :: t2).eraseIdx i)
      have hlen : ((b :: t2).set i ((b :: t2).getD ((b :: t2).length - 1) d)) ≠ [] := by
        intro hx
        have := congrArg List.length hx
        simp at this
      rw [List.dropLast_cons_of_ne_nil hlen]
      exact (list_shrink_perm (b :: t2) i d (by simpa using h)).cons a

theorem list_getD_map {α β : Type} : ∀ (l : List α) (f : α → β) (i : Nat) (d : α),
    (l.map f).getD i (f d) = f (l.getD i d)
  | [], _, _, _ => rfl
  | b :: t, f, 0, d => rfl
  | b :: t, f, i + 1, d => by
    simp only [List.map, List.getD_cons_succ]
    exact list_getD_map t f i d

theorem list_eraseIdx_map {α β : Type} : ∀ (l : List α) (f : α → β) (i : Nat),
    (l.map f).eraseIdx i = (l.eraseIdx i).map f
  | [], _, _ => rfl
  | b :: t, f, 0 => rfl
  | b :: t, f, i + 1 => by
    simp only [List.map, List.eraseIdx_cons_succ]
    rw [list_eraseIdx_map t f i]

theorem list_mem_range' : ∀ (k j m : Nat), m ∈ List.range' j k ↔ j ≤ m ∧ m < j + k
  | 0, j, m => by simp
  | k + 1, j, m => by
    rw [List.range'_succ]
    simp only [List.mem_cons, list_mem_range' k (j + 1) m]
    omega

theorem cntL_range' : ∀ (R : Nat → Option (List Nat)) (k j : Nat),
    cntL R (List.range' j k) = cntR R j k
  | R, 0, j => rfl
  | R, k + 1, j => by
    rw [List.range'_succ]
    simp only [cntL, List.map, List.sum_cons, cntR]
    rw [← cntL_range' R k (j + 1)]
    rfl

theorem cntL_perm (R : Nat → Option (List Nat)) {l l2 : List Nat} (h : l.Perm l2) :
    cntL R l = cntL R l2 :=
  (h.map (hitW R)).sum_eq

theorem cntL_append (R : Nat → Option (List Nat)) (l l2 : List Nat) :
    cntL R (l ++ l2) = cntL R l + cntL R l2 := by
  simp [cntL]

/-!
### Slot invariant and the single-step case analysis
-/

/-- The link a pipeline slot will follow next. -/
def slotLink (s : LState) (st : PipeSt) : Nat :=
  match st.node with
  | none => s.table st.ent
  | some n => n

/-- The slot's pending chain walk finishes with outcome `R st.idx`. -/
def slotInv (s : LState) (keys : Nat → List Nat) (R : Nat → Option (List Nat))
    (st : PipeSt) : Prop :=
  (match st.node with | some n => n ≠ NODE_END | none => True) ∧
  ∃ f, lFetchLoop s (keys st.idx) (slotLink s st) f = some (R st.idx)

theorem lFetchLoop_end (s : LState) (key : List Nat) (f : Nat) :
    lFetchLoop s key NODE_END f = some none := by
  cases f <;> simp [lFetchLoop]

theorem slotStep_spec (s : LState) (keys : Nat → List Nat) (dft : Option (List Nat))
    (R : Nat → Option (List Nat)) (cur : PipeSt) (hinv : slotInv s keys R cur) :
    (∃ st, slotStep s keys dft cur = .cont st ∧ st.idx = cur.idx ∧ slotInv s keys R st) ∨
    (∃ hb wr, slotStep s keys dft cur = .done hb wr ∧
      ((∃ v, R cur.idx = some v ∧ hb = true ∧ wr = some v) ∨
       (R cur.idx = none ∧ hb = false ∧ wr = dft))) := by
  obtain ⟨hne, f, hwalk⟩ := hinv
  cases hnode : cur.node with
  | none =>
    simp only [slotLink, hnode] at hwalk
    simp only [slotStep, hnode]
    by_cases hend : s.table cur.ent = NODE_END
    · rw [hend, lFetchLoop_end] at hwalk
      right
      refine ⟨false, dft, ?_, Or.inr ⟨(Option.some.inj hwalk).symm, rfl, rfl⟩⟩
      rw [if_neg (by simp [hend])]
    · left
      refine ⟨{ cur with node := some (s.table cur.ent) }, ?_, rfl, ?_, f, ?_⟩
      · rw [if_pos (by simpa using hend)]
      · simpa using hend
      · simpa [slotLink] using hwalk
  | some n =>
    simp only [slotLink, hnode] at hwalk
    have hne2 : n ≠ NODE_END := by rw [hnode] at hne; exact hne
    simp only [slotStep, hnode]
    cases f with
    | zero =>
      rw [lFetchLoop, if_neg hne2] at hwalk
      exact absurd hwalk (by simp)
    | succ f2 =>
      rw [lFetchLoop, if_neg hne2] at hwalk
      by_cases hkey : nodeKey s n = keys cur.idx
      · rw [if_pos hkey] at hwalk
        rw [if_pos hkey]
        right
        exact ⟨true, some (nodeVal s n), rfl,
          Or.inl ⟨nodeVal s n, (Option.some.inj hwalk).symm, rfl, rfl⟩⟩
      · rw [if_neg hkey] at hwalk
        rw [if_neg hkey]
        by_cases hend : nodeNext s n = NODE_END
        · rw [hend, lFetchLoop_end] at hwalk
          right
          refine ⟨false, dft, ?_, Or.inr ⟨(Option.some.inj hwalk).symm, rfl, rfl⟩⟩
          rw [if_neg (by simp [hend])]
        · left
          refine ⟨{ cur with node := some (nodeNext s n) }, ?_, rfl, ?_, f2, ?_⟩
          · rw [if_pos (by simpa using hend)]
          · simpa using hend
          · simpa [slotLink] using hwalk

/-- The key indices still owed an answer: those parked in the window plus
the not-yet-issued tail of the batch. -/
def pendOf (window : List PipeSt) (nextIdx batch : Nat) : List Nat :=
  window.map PipeSt.idx ++ List.range' nextIdx (batch - nextIdx)

theorem pipeRun_succ (s : LState) (keys : Nat → List Nat) (dft : Option (List Nat))
    (batch fuel : Nat) (window : List PipeSt) (i nextIdx hit : Nat) (out : Nat → List Nat) :
    pipeRun s keys dft batch (fuel + 1) window i nextIdx hit out =
      if window.length = 0 then some (hit, out)
      else if i ≥ window.length then pipeRun s keys dft batch fuel window 0 nextIdx hit out
      else
        let cur := window.getD i (initPipe s keys 0)
        match slotStep s keys dft cur with
        | .cont st => pipeRun s keys dft batch fuel (window.set i st) (i + 1) nextIdx hit out
        | .done h wr =>
          let out1 := match wr with
            | none => out
            | some v => upd out cur.idx v
          let hit1 := if h then hit + 1 else hit
          if nextIdx < batch then
            pipeRun s keys dft batch fuel (window.set i (initPipe s keys nextIdx)) (i + 1)
              (nextIdx + 1) hit1 out1
          else
            pipeRun s keys dft batch fuel
              ((window.set i (window.getD (window.length - 1) cur)).dropLast) i nextIdx
              hit1 out1 := rfl

/-- Transfer of the pointwise output description across finishing one
slot. -/
theorem pend_step_assemble (R : Nat → Option (List Nat)) (dft : Option (List Nat))
    (out out1 O : Nat → List Nat) (pend pend2 : List Nat) (idx0 : Nat)
    (hperm : pend.Perm (idx0 :: pend2))
    (hnotin : idx0 ∉ pend2)
    (hcase : (∃ v, R idx0 = some v ∧ out1 = upd out idx0 v) ∨
      (R idx0 = none ∧ out1 = (match dft with | none => out | some dv => upd out idx0 dv)))
    (hO : ∀ j, O j = if j ∈ pend2 then writeW R dft out1 j else out1 j) :
    ∀ j, O j = if j ∈ pend then writeW R dft out j else out j := by
  intro j
  rw [hO j]
  by_cases h1 : j = idx0
  · subst h1
    rw [if_neg hnotin, if_pos (hperm.mem_iff.mpr (List.mem_cons_self _ _))]
    rcases hcase with ⟨v, hRv, rfl⟩ | ⟨hRn, rfl⟩
    · simp [upd, writeW, hRv]
    · cases dft with
      | some dv => simp [upd, writeW, hRn]
      | none => simp [writeW, hRn]
  · have hupd : out1 j = out j := by
      rcases hcase with ⟨v, hRv, rfl⟩ | ⟨hRn, rfl⟩
      · simp [upd, h1]
      · cases dft with
        | some dv => simp [upd, h1]
        | none => rfl
    have hmem : j ∈ pend ↔ j ∈ pend2 := by
      rw [hperm.mem_iff]
      simp [List.mem_cons, h1]
    by_cases h2 : j ∈ pend2
    · rw [if_pos h2, if_pos (hmem.mpr h2)]
      exact writeW_congr R dft _ _ j hupd
    · rw [if_neg h2, if_neg (fun hx => h2 (hmem.mp hx))]
      exact hupd

/-- The pipeline scheduler realises the canonical outcome: on success its
hit count and output are the current totals plus one contribution per
pending index. -/
theorem pipeRun_spec (s : LState) (keys : Nat → List Nat) (dft : Option (List Nat))
    (batch : Nat) (R : Nat → Option (List Nat))
    (hR : ∀ j, j < batch → ∃ f, lFetch s (keys j) f = some (R j)) :
    ∀ fuel window i nextIdx hit out H O,
      (∀ st ∈ window, slotInv s keys R st ∧ st.idx < nextIdx) →
      ((window.map PipeSt.idx).Nodup) →
      nextIdx ≤ batch →
      (window = [] → batch ≤ nextIdx) →
      pipeRun s keys dft batch fuel window i nextIdx hit out = some (H, O) →
      H = hit + cntL R (pendOf window nextIdx batch) ∧
      ∀ j, O j = if j ∈ pendOf window nextIdx batch then writeW R dft out j else out j := by
  intro fuel
  induction fuel with
  | zero =>
    intro window i nextIdx hit out H O _ _ _ _ hrun
    exact absurd hrun (by simp [pipeRun])
  | succ fl ih =>
    intro window i nextIdx hit out H O hwin hnd hni hemp hrun
    rw [pipeRun_succ] at hrun
    by_cases hwl : window.length = 0
    · rw [if_pos hwl] at hrun
      have hwe : window = [] := List.length_eq_zero.mp hwl
      have hbn : batch ≤ nextIdx := hemp hwe
      have hpend : pendOf window nextIdx batch = [] := by
        rw [hwe]
        simp [pendOf, show batch - nextIdx = 0 by omega]
      have hps := Option.some.inj hrun
      injection hps with hH hO
      subst hH
      subst hO
      constructor
      · simp [hpend, cntL]
      · intro j
        rw [hpend]
        simp
    · rw [if_neg hwl] at hrun
      by_cases hi : i ≥ window.length
      · rw [if_pos hi] at hrun
        exact ih window 0 nextIdx hit out H O hwin hnd hni hemp hrun
      · rw [if_neg hi] at hrun
        push_neg at hi
        dsimp only at hrun
        have hcurmem : window.getD i (initPipe s keys 0) ∈ window := by
          rw [List.getD_eq_getElem window (initPipe s keys 0) (by simpa using hi)]
          exact List.getElem_mem _
        obtain ⟨hcur_inv, hcur_lt⟩ := hwin _ hcurmem
        have hpermmap : (window.map PipeSt.idx).Perm
            ((window.getD i (initPipe s keys 0)).idx :: (window.map PipeSt.idx).eraseIdx i) := by
          have hp := list_perm_cons_eraseIdx (window.map PipeSt.idx) i
            (PipeSt.idx (initPipe s keys 0)) (by simpa using hi)
          rwa [list_getD_map] at hp
        have hnd2 := hpermmap.nodup hnd
        have hnotin_e : (window.getD i (initPipe s keys 0)).idx
            ∉ (window.map PipeSt.idx).eraseIdx i := (List.nodup_cons.mp hnd2).1
        rcases slotStep_spec s keys dft R _ hcur_inv with
          ⟨st, hstep, hidx, hinvst⟩ | ⟨hb, wr, hstep, hout⟩
        · rw [hstep] at hrun
          have hmapeq : (window.set i st).map PipeSt.idx = window.map PipeSt.idx := by
            rw [List.map_set, hidx]
            have hg : PipeSt.idx (window.getD i (initPipe s keys 0))
                = (window.map PipeSt.idx).getD i (PipeSt.idx (initPipe s keys 0)) :=
              (list_getD_map window PipeSt.idx i _).symm
            rw [hg]
            exact list_set_getD_self _ i _ (by simpa using hi)
          have hwin2 : ∀ st2 ∈ window.set i st, slotInv s keys R st2 ∧ st2.idx < nextIdx := by
            intro st2 hmem
            rcases List.mem_or_eq_of_mem_set hmem with hm | hm
            · exact hwin st2 hm
            · subst hm
              exact ⟨hinvst, hidx ▸ hcur_lt⟩
          have hnd3 : ((window.set i st).map PipeSt.idx).Nodup := by
            rw [hmapeq]; exact hnd
          have hemp2 : window.set i st = [] → batch ≤ nextIdx := by
            intro hx
            have hlen := congrArg List.length hx
            rw [List.length_set] at hlen
            simp only [List.length_nil] at hlen
            omega
          have hres := ih (window.set i st) (i + 1) nextIdx hit out H O hwin2 hnd3 hni hemp2 hrun
          rwa [show pendOf (window.set i st) nextIdx batch = pendOf window nextIdx batch by
            unfold pendOf; rw [hmapeq]] at hres
        · rw [hstep] at hrun
          dsimp only at hrun
          by_cases hnb : nextIdx < batch
          · rw [if_pos hnb] at hrun
            have hmap2 : (window.set i (initPipe s keys nextIdx)).map PipeSt.idx
                = (window.map PipeSt.idx).set i nextIdx := by
              rw [List.map_set]
              rfl
            have hperm2 : ((window.map PipeSt.idx).set i nextIdx).Perm
                (nextIdx :: (window.map PipeSt.idx).eraseIdx i) :=
              list_set_perm _ i _ (by simpa using hi)
            have hwin2 : ∀ st2 ∈ window.set i (initPipe s keys nextIdx),
                slotInv s keys R st2 ∧ st2.idx < nextIdx + 1 := by
              intro st2 hmem
              rcases List.mem_or_eq_of_mem_set hmem with hm | hm
              · obtain ⟨ha, hb2⟩ := hwin st2 hm
                exact ⟨ha, by omega⟩
              · subst hm
                obtain ⟨f, hf⟩ := hR nextIdx hnb
                refine ⟨⟨trivial, f, ?_⟩, by simp [initPipe]⟩
                simpa [slotLink, initPipe, lFetch] using hf
            have hnd3 : ((window.set i (initPipe s keys nextIdx)).map PipeSt.idx).Nodup := by
              rw [hmap2]
              refine (hperm2.symm).nodup ?_
              rw [List.nodup_cons]
              refine ⟨?_, (List.eraseIdx_sublist _ i).nodup hnd⟩
              intro hmem
              have hmem2 := (List.eraseIdx_sublist (window.map PipeSt.idx) i).mem hmem
              obtain ⟨st2, hst2, hide⟩ := List.mem_map.mp hmem2
              have := (hwin st2 hst2).2
              omega
            have hemp2 : window.set i (initPipe s keys nextIdx) = [] → batch ≤ nextIdx + 1 := by
              intro hx
              have hlen := congrArg List.length hx
              rw [List.length_set] at hlen
              simp only [List.length_nil] at hlen
              omega
            have hres := ih _ (i + 1) (nextIdx + 1) _ _ H O hwin2 hnd3 (by omega) hemp2 hrun
            obtain ⟨hH, hO⟩ := hres
            have hrange : List.range' nextIdx (batch - nextIdx)
                = nextIdx :: List.range' (nextIdx + 1) (batch - (nextIdx + 1)) := by
              rw [show batch - nextIdx = (batch - (nextIdx + 1)) + 1 by omega, List.range'_succ]
            have hpermA : (pendOf window nextIdx batch).Perm
                ((window.getD i (initPipe s keys 0)).idx
                  :: pendOf (window.set i (initPipe s keys nextIdx)) (nextIdx + 1) batch) := by
              unfold pendOf
              rw [hrange, hmap2]
              exact (hpermmap.append_right _).trans
                (List.Perm.cons _ (List.perm_middle.trans ((hperm2.append_right _).symm)))
            have hnotin2 : (window.getD i (initPipe s keys 0)).idx
                ∉ pendOf (window.set i (initPipe s keys nextIdx)) (nextIdx + 1) batch := by
              unfold pendOf
              rw [hmap2]
              intro hmem
              rcases List.mem_append.mp hmem with hm | hm
              · rcases (hperm2.mem_iff).mp hm with hm2
                rcases List.mem_cons.mp hm2 with hm3 | hm3
                · omega
                · exact hnotin_e hm3
              · rw [list_mem_range'] at hm
                omega
            have hcnt : cntL R (pendOf window nextIdx batch)
                = hitW R (window.getD i (initPipe s keys 0)).idx
                  + cntL R (pendOf (window.set i (initPipe s keys nextIdx)) (nextIdx + 1) batch) := by
              rw [cntL_perm R hpermA]
              simp [cntL]
            rcases hout with ⟨v, hRv, hhb, hwr⟩ | ⟨hRn, hhb, hwr⟩
            · subst hhb
              subst hwr
              refine ⟨?_, ?_⟩
              · rw [hH, hcnt]
                have h1 : hitW R (window.getD i (initPipe s keys 0)).idx = 1 := by
                  unfold hitW
                  rw [hRv]
                rw [h1, if_pos rfl]
                omega
              · exact pend_step_assemble R dft out _ O _ _ _ hpermA hnotin2
                  (Or.inl ⟨v, hRv, rfl⟩) hO
            · subst hhb
              rw [hwr] at hO
              refine ⟨?_, ?_⟩
              · rw [hH, hcnt]
                have h1 : hitW R (window.getD i (initPipe s keys 0)).idx = 0 := by
                  unfold hitW
                  rw [hRn]
                rw [h1, if_neg (by simp)]
                omega
              · exact pend_step_assemble R dft out _ O _ _ _ hpermA hnotin2
                  (Or.inr ⟨hRn, rfl⟩) hO
          · rw [if_neg hnb] at hrun
            have hshrink := list_shrink_perm window i (window.getD i (initPipe s keys 0))
              (by simpa using hi)
            have hmap2 : (((window.set i
                  (window.getD (window.length - 1) (window.getD i (initPipe s keys 0)))).dropLast).map
                PipeSt.idx).Perm ((window.map PipeSt.idx).eraseIdx i) := by
              refine List.Perm.trans (hshrink.map PipeSt.idx) ?_
              rw [list_eraseIdx_map]
            have hwin2 : ∀ st2 ∈ (window.set i
                  (window.getD (window.length - 1) (window.getD i (initPipe s keys 0)))).dropLast,
                slotInv s keys R st2 ∧ st2.idx < nextIdx := by
              intro st2 hmem
              have hmem2 : st2 ∈ window.eraseIdx i := hshrink.mem_iff.mp hmem
              exact hwin st2 ((List.eraseIdx_sublist window i).mem hmem2)
            have hnd3 := hmap2.symm.nodup ((List.eraseIdx_sublist _ i).nodup hnd)
            have hemp2 : (window.set i
                  (window.getD (window.length - 1) (window.getD i (initPipe s keys 0)))).dropLast
                = [] → batch ≤ nextIdx := by
              intro _
              omega
            have hres := ih _ i nextIdx _ _ H O hwin2 hnd3 hni hemp2 hrun
            obtain ⟨hH, hO⟩ := hres
            have hrange0 : batch - nextIdx = 0 := by omega
            have hpermA : (pendOf window nextIdx batch).Perm
                ((window.getD i (initPipe s keys 0)).idx
                  :: pendOf ((window.set i
                    (window.getD (window.length - 1) (window.getD i (initPipe s keys 0)))).dropLast)
                    nextIdx batch) := by
              unfold pendOf
              rw [hrange0]
              simp only [List.range', List.append_nil]
              refine List.Perm.trans hpermmap ?_
              refine List.Perm.cons _ ?_
              exact hmap2.symm
            have hnotin2 : (window.getD i (initPipe s keys 0)).idx
                ∉ pendOf ((window.set i
                  (window.getD (window.length - 1) (window.getD i (initPipe s keys 0)))).dropLast)
                  nextIdx batch := by
              unfold pendOf
              rw [hrange0]
              simp only [List.range', List.append_nil]
              intro hmem
              exact hnotin_e (hmap2.mem_iff.mp hmem)
            have hcnt : cntL R (pendOf window nextIdx batch)
                = hitW R (window.getD i (initPipe s keys 0)).idx
                  + cntL R (pendOf ((window.set i
                    (window.getD (window.length - 1) (window.getD i (initPipe s keys 0)))).dropLast)
                    nextIdx batch) := by
              rw [cntL_perm R hpermA]
              simp [cntL]
            rcases hout with ⟨v, hRv, hhb, hwr⟩ | ⟨hRn, hhb, hwr⟩
            · subst hhb
              subst hwr
              refine ⟨?_, ?_⟩
              · rw [hH, hcnt]
                have h1 : hitW R (window.getD i (initPipe s keys 0)).idx = 1 := by
                  unfold hitW
                  rw [hRv]
                rw [h1, if_pos rfl]
                omega
              · exact pend_step_assemble R dft out _ O _ _ _ hpermA hnotin2
                  (Or.inl ⟨v, hRv, rfl⟩) hO
            · subst hhb
              rw [hwr] at hO
              refine ⟨?_, ?_⟩
              · rw [hH, hcnt]
                have h1 : hitW R (window.getD i (initPipe s keys 0)).idx = 0 := by
                  unfold hitW
                  rw [hRn]
                rw [h1, if_neg (by simp)]
                omega
              · exact pend_step_assemble R dft out _ O _ _ _ hpermA hnotin2
                  (Or.inr ⟨hRn, rfl⟩) hO

theorem cntR_split (R : Nat → Option (List Nat)) :
    ∀ a j b, cntR R j (a + b) = cntR R j a + cntR R (j + a) b := by
  intro a
  induction a with
  | zero => intro j b; simp [cntR]
  | succ n ih =>
    intro j b
    rw [show n + 1 + b = (n + b) + 1 by omega]
    simp only [cntR]
    rw [ih (j + 1) b, show j + 1 + n = j + (n + 1) by omega]
    omega

/-- C9: when both runs finish, `batch_fetch` returns exactly the hit
count and per-key output bytes of fetching each key serially in order
(with `dft_val` copied to the slot of every missing key when provided):
the pipeline changes throughput only, not the observable result. -/
theorem c9_batch_fetch_eq_serial (s : LState) (keys : Nat → List Nat)
    (dft : Option (List Nat)) (batch : Nat) (out0 : Nat → List Nat)
    (f1 f2 H1 H2 : Nat) (O1 O2 : Nat → List Nat)
    (hb : batchFetch s keys dft batch out0 f1 = some (H1, O1))
    (hs : serialBatch s keys dft batch out0 f2 = some (H2, O2)) :
    H1 = H2 ∧ ∀ j, O1 j = O2 j := by
  rw [serialBatch] at hs
  have hterm := serialLoop_fetch_some s keys dft f2 batch 0 0 out0 H2 O2 hs
  set R : Nat → Option (List Nat) :=
    fun j => match lFetch s (keys j) f2 with | some r => r | none => none with hRdef
  have hfetch : ∀ t, t < batch → lFetch s (keys t) f2 = some (R t) := by
    intro t ht
    obtain ⟨r, hr⟩ := hterm t ht
    rw [Nat.zero_add] at hr
    rw [hRdef]
    simp only [hr]
  obtain ⟨O, hO, hPt⟩ := serialLoop_eval s keys dft f2 R batch 0 0 out0
    (fun t ht => by rw [Nat.zero_add]; exact hfetch t ht)
  have hser := Option.some.inj (hO.symm.trans hs)
  injection hser with hH2 hO2
  rw [batchFetch] at hb
  have hcomp : ((List.range (min batch WINDOW_SIZE)).map (initPipe s keys)).map PipeSt.idx
      = List.range (min batch WINDOW_SIZE) := by
    rw [List.map_map]
    have hfun : (PipeSt.idx ∘ initPipe s keys) = fun j => j := by
      funext j
      rfl
    rw [hfun]
    exact List.map_id' _
  have hwin0 : ∀ st ∈ (List.range (min batch WINDOW_SIZE)).map (initPipe s keys),
      slotInv s keys R st ∧ st.idx < min batch WINDOW_SIZE := by
    intro st hmem
    obtain ⟨j, hj, rfl⟩ := List.mem_map.mp hmem
    have hjw : j < min batch WINDOW_SIZE := List.mem_range.mp hj
    refine ⟨⟨trivial, f2, ?_⟩, by simpa [initPipe] using hjw⟩
    have := hfetch j (by omega)
    simpa [slotLink, initPipe, lFetch] using this
  have hnd0 : (((List.range (min batch WINDOW_SIZE)).map (initPipe s keys)).map PipeSt.idx).Nodup := by
    rw [hcomp]
    exact List.nodup_range _
  have hemp0 : (List.range (min batch WINDOW_SIZE)).map (initPipe s keys) = []
      → batch ≤ min batch WINDOW_SIZE := by
    intro hx
    have hlen := congrArg List.length hx
    simp only [List.length_map, List.length_range, List.length_nil] at hlen
    simp only [WINDOW_SIZE] at hlen ⊢
    omega
  obtain ⟨hH1, hO1⟩ := pipeRun_spec s keys dft batch R
    (fun j hj => ⟨f2, hfetch j hj⟩) f1 _ 0 (min batch WINDOW_SIZE) 0 out0 H1 O1
    hwin0 hnd0 (Nat.min_le_left _ _) hemp0 hb
  have hmem : ∀ j, (j ∈ pendOf ((List.range (min batch WINDOW_SIZE)).map (initPipe s keys))
      (min batch WINDOW_SIZE) batch) ↔ j < batch := by
    intro j
    unfold pendOf
    rw [hcomp, List.mem_append, List.mem_range, list_mem_range']
    have := Nat.min_le_left batch WINDOW_SIZE
    omega
  have hcnt0 : cntL R (pendOf ((List.range (min batch WINDOW_SIZE)).map (initPipe s keys))
      (min batch WINDOW_SIZE) batch) = cntR R 0 batch := by
    unfold pendOf
    rw [hcomp, cntL_append, List.range_eq_range', cntL_range', cntL_range']
    have hsplit := cntR_split R (min batch WINDOW_SIZE) 0 (batch - min batch WINDOW_SIZE)
    rw [Nat.zero_add] at hsplit
    have hsum : min batch WINDOW_SIZE + (batch - min batch WINDOW_SIZE) = batch := by
      have := Nat.min_le_left batch WINDOW_SIZE
      omega
    rw [hsum] at hsplit
    exact hsplit.symm
  constructor
  · rw [hH1, hcnt0, ← hH2]
  · intro j
    rw [hO1 j, ← hO2, hPt j]
    by_cases hj : j < batch
    · rw [if_pos ((hmem j).mpr hj), if_pos (by omega)]
    · rw [if_neg (fun hx => hj ((hmem j).mp hx)), if_neg (by omega)]

/-- A one-node fixed-engine state for exercising the batch pipeline:
key byte 5 bound to value byte 3. -/
def c9lw : LState :=
  { keyLen := 1, valLen := 1, itemSize := 8, capacity := 100, seed := 0, totalEntry := 4
    item := 1, writing := false, recycleR := 0, recycleW := 0, freeHead := 1, freeTail := 1
    stamps := fun _ => 0, recycle := fun _ => NODE_END, table := fun _ => 0
    data := fun j => if j < 4 then 255 else if j = 4 then 5 else if j = 5 then 3 else 0 }

/-- Witness for C9: a one-key batch on `c9lw`, where both the pipeline and
the serial loop hit, returning one hit and the value byte 3 in slot 0. -/
theorem c9_batch_fetch_eq_serial_witness :
    (1 : Nat) = 1 ∧ ∀ j, upd (fun _ => ([] : List Nat)) 0 [3] j
      = upd (fun _ => ([] : List Nat)) 0 [3] j :=
  c9_batch_fetch_eq_serial c9lw (fun _ => [5]) none 1 (fun _ => []) 8 2 1 1
    (upd (fun _ => []) 0 [3]) (upd (fun _ => []) 0 [3]) rfl rfl

/-- Witness for C8's amended theorem: `Extend(percent = 1)` on the file
created for `itemLimit = 1000, maxKeyLen = 1, maxValLen = 1,
avgItemSize = 2` succeeds. -/
theorem c8_extend_grows_slab_witness :
    (goExtend { meta := c8meta, size := clacSizeGo c8meta, bytes := fun _ => 0 } 1).isSome
      = true :=
  (c8_extend_grows_slab ⟨1000, 1, 1, 2⟩ 0 c8meta (fun _ => 0) 1
    (by decide) (by decide) (by decide) (by decide)).1

end Estuary
